/-
Verification of the openide node/tree engine: a shallow embedding of the
Children/EntrySupport/Node event-propagation engine
(src/openide/nodes/_like_netbeans/children.py, entry_support_default.py,
children_storage.py, node.py) and of the reader/writer Mutex post-request
logic (src/openide/utils/mutex.py), with theorems settling the
specification claims about them.

Modelling conventions:
  * Nodes are modelled as records carrying an identity and an optional
    system name (`Node.system_name`).  Keys are natural numbers (they are
    opaque hashable values in the source).
  * Python dicts are modelled as insertion-ordered association lists
    (`alookup` / `ainsert` / `aerase`), matching dict lookup, in-place
    update and deletion semantics.
  * `_Info` object identity is modelled by a fresh numeric `id` drawn from
    a counter (`nextId`), because `ChildrenStorage.__map` is keyed by
    `_Info` object identity.
  * The execution model is sequential (single thread, holding write
    access): the claims settled against this embedding concern the
    reconciliation algorithm, not thread interleavings.  Assertions that
    merely check invariants (`__check_consistency`, mutex mode asserts)
    are no-ops as in `python -O`; operations that raise (`KeyError`,
    `RuntimeError` from `__check_info`, `ValueError`) return `none`.
  * Event firing: `_notify_remove` / `__update_order` / `_notify_add`
    call into the parent node only when `children._parent is not None`;
    the flag `hasParent` models that, and an `Event` is recorded for each
    such `_fire_sub_nodes_change` / `_fire_reorder_change` call (the
    parent is assumed to have at least one registered node listener).
-/
import Mathlib

set_option autoImplicit false

namespace Openide

/-! ## Association-list helpers (Python dict semantics) -/

/-- Lookup in an insertion-ordered association list (dict `get`). -/
def alookup {α β : Type} [DecidableEq α] : List (α × β) → α → Option β
  | [], _ => none
  | (k, v) :: rest, a => if k = a then some v else alookup rest a

/-- In-place dict update: every binding whose key equals `a` becomes
`(a, b)`, positions preserved. -/
def areplace {α β : Type} [DecidableEq α] : List (α × β) → α → β → List (α × β)
  | [], _, _ => []
  | (k, v) :: rest, a, b =>
    if k = a then (a, b) :: areplace rest a b else (k, v) :: areplace rest a b

/-- Dict assignment `m[a] = b`: replaces the value in place when the key is
present, otherwise appends (insertion order preserved). -/
def ainsert {α β : Type} [DecidableEq α] (m : List (α × β)) (a : α) (b : β) :
    List (α × β) :=
  if (alookup m a).isSome then areplace m a b
  else m ++ [(a, b)]

/-- Dict deletion `del m[a]` (first binding; callers guarantee presence). -/
def aerase {α β : Type} [DecidableEq α] : List (α × β) → α → List (α × β)
  | [], _ => []
  | (k, v) :: rest, a => if k = a then rest else (k, v) :: aerase rest a

/-- `list.remove(a)`: drop the first occurrence of `a`. -/
def eraseFirst {α : Type} [DecidableEq α] : List α → α → List α
  | [], _ => []
  | x :: rest, a => if x = a then rest else x :: eraseFirst rest a

/-- Boolean membership test (`a in l`). -/
def memB {α : Type} [DecidableEq α] (a : α) : List α → Bool
  | [] => false
  | x :: rest => if x = a then true else memB a rest

/-- Sequential `list.remove` of each element of the second list. -/
def eraseList {α : Type} [DecidableEq α] : List α → List α → List α
  | l, [] => l
  | l, x :: xs => eraseList (eraseFirst l x) xs

/-- Number of occurrences of `a` in `l`. -/
def countOcc {α : Type} [DecidableEq α] (a : α) : List α → Nat
  | [] => 0
  | x :: rest => (if x = a then 1 else 0) + countOcc a rest

/-! ## Data model -/

/-- A tree node: identity plus the `system_name` feature-descriptor field
used by `Children.find_child`. -/
structure Node where
  nid : Nat
  sysName : Option String
deriving DecidableEq, Repr

/-- A `Children.Entry`.  `keyEntry key count` is `Keys._KeyEntry` for the
`count`-th occurrence of `key` (`__eq__`/`__hash__` compare `(key, count)`);
`arrayEntry aid` is the `Array.__ArrayEntry` of the `Array` instance `aid`
(compared by object identity, as it has no `__eq__` override). -/
inductive Entry where
  | keyEntry (key : Nat) (count : Nat)
  | arrayEntry (aid : Nat)
deriving DecidableEq, Repr

/-- `EntrySupportDefault._Info`: object identity `id` plus the cached
node count `_length` (set by `ChildrenStorage.nodes_for`/`use_nodes`). -/
structure Info where
  id : Nat
  length : Nat
deriving DecidableEq, Repr

/-- Environment: the client `Keys._create_nodes` mapping (already folded
through `_KeyEntry.nodes`, which turns `None` into `[]`), and the raw
node collection of each `Array` (`Array._collection`, read by
`__ArrayEntry.nodes`). -/
structure Env where
  createNodes : Nat → List Node
  collection : Nat → List Node

/-- `Children.Entry.nodes(source)` for each entry variant. -/
def Entry.nodesOf (env : Env) : Entry → List Node
  | .keyEntry k _ => env.createNodes k
  | .arrayEntry aid => env.collection aid

/-- The events an `EntrySupportDefault` dispatches to its parent node:
`_fire_sub_nodes_change(False, nodes, current)`,
`_fire_reorder_change(perm)` and `_fire_sub_nodes_change(True, nodes, None)`. -/
inductive Event where
  | removed (nodes : List Node) (current : List Node)
  | reordered (perm : List Nat)
  | added (nodes : List Node)
deriving DecidableEq, Repr

/-- Event-kind discriminators. -/
def Event.isRemoved : Event → Bool
  | .removed _ _ => true
  | _ => false

def Event.isReordered : Event → Bool
  | .reordered _ => true
  | _ => false

def Event.isAdded : Event → Bool
  | .added _ => true
  | _ => false

/-- The state of one `EntrySupportDefault` together with its
`ChildrenStorage`:
  * `entries`: `self.__entries`, the active entry list;
  * `map`: `self.__map`, entry → `_Info`;
  * `storagePresent`: whether `self.__storage()` is a live storage
    (`False` models the dead `__EMPTY` reference of a fresh support);
  * `storageNodes`: `ChildrenStorage.__nodes`, the composite node cache
    (`none` when cleared or never computed);
  * `storageMap`: `ChildrenStorage.__map`, `_Info` identity → its nodes;
  * `nextId`: fresh-identity counter for new `_Info` objects;
  * `mustNotify`: `self.__must_notify_set_entries`;
  * `inited`: `self.__inited` / `storage.entry_support is self` (set
    together in the sequential initialisation path of `__get_storage`);
  * `hasParent`: `self.children._parent is not None` (with the children
    attached and being the current entry support of its parent). -/
structure ESState where
  entries : List Entry
  map : List (Entry × Info)
  storagePresent : Bool
  storageNodes : Option (List Node)
  storageMap : List (Nat × List Node)
  nextId : Nat
  mustNotify : Bool
  inited : Bool
  hasParent : Bool
deriving DecidableEq, Repr

/-! ## ChildrenStorage / EntrySupportDefault operations -/

/-- `EntrySupportDefault.__find_info`: get the `_Info` for an entry,
creating (and registering) a fresh one when absent. -/
def findInfo (st : ESState) (e : Entry) : Info × ESState :=
  match alookup st.map e with
  | some info => (info, st)
  | none =>
    let info : Info := ⟨st.nextId, 0⟩
    (info, { st with map := ainsert st.map e info, nextId := st.nextId + 1 })

/-- `ChildrenStorage.nodes_for(info, has_to_exist=False)`: return the
cached nodes for `info`, computing them from the entry (and recording
`info._length`) on a cache miss. -/
def nodesForF (env : Env) (st : ESState) (e : Entry) (info : Info) :
    List Node × Info × ESState :=
  match alookup st.storageMap info.id with
  | some ns => (ns, info, st)
  | none =>
    let ns := e.nodesOf env
    ( ns, { info with length := ns.length },
      { st with storageMap := ainsert st.storageMap info.id ns } )

/-- `ChildrenStorage.nodes_for(info, has_to_exist=True)`: the nodes must
already be cached (assertion failure otherwise). -/
def nodesForT (st : ESState) (info : Info) : Option (List Node) :=
  alookup st.storageMap info.id

/-- The loop of `EntrySupportDefault._just_compute_nodes` over a snapshot
of the entry list, threading `_Info` creation and length updates. -/
def computeGo (env : Env) : List Entry → ESState → List Node × ESState
  | [], st => ([], st)
  | e :: rest, st =>
    match findInfo st e with
    | (info, st1) =>
      match nodesForF env st1 e info with
      | (ns, info2, st2) =>
        match computeGo env rest { st2 with map := ainsert st2.map e info2 } with
        | (nss, st4) => (ns ++ nss, st4)

/-- `EntrySupportDefault._just_compute_nodes`. -/
def justComputeNodes (env : Env) (st : ESState) : List Node × ESState :=
  computeGo env st.entries st

/-- The `ChildrenStorage.nodes` property on a wired storage: return the
cached composite list, recomputing (and caching) it when cleared. -/
def storageGetNodes (env : Env) (st : ESState) : List Node × ESState :=
  match st.storageNodes with
  | some ns => (ns, st)
  | none =>
    match justComputeNodes env st with
    | (ns, st1) => (ns, { st1 with storageNodes := some ns })

/-- The sequential effect of `EntrySupportDefault.__get_storage` when no
storage exists yet: create a fresh `ChildrenStorage`, run
`children._call_add_notify()` (a no-op for plain `Array`/`Keys`), wire
`storage.entry_support = self` and set `self.__inited = True`. -/
def getStorage (st : ESState) : ESState :=
  { st with storagePresent := true, storageNodes := none, storageMap := [],
            inited := true }

/-- `EntrySupportDefault.get_nodes()` (sequential: the retry loop of the
source converges to reading the computed storage nodes once the storage
is initialised on the calling thread). -/
def getNodesES (env : Env) (st : ESState) : List Node × ESState :=
  let st1 := if st.storagePresent then st else getStorage st
  storageGetNodes env st1

/-- `EntrySupportDefault.get_nodes_count()`. -/
def getNodesCount (env : Env) (st : ESState) : Nat :=
  (getNodesES env st).1.length

/-- `EntrySupportDefault.get_node_at(index)`:
`nodes[index] if index < len(nodes) else None` for a non-negative index. -/
def getNodeAt (env : Env) (st : ESState) (i : Nat) : Option Node × ESState :=
  match getNodesES env st with
  | (ns, st1) => (if h : i < ns.length then some (ns.get ⟨i, h⟩) else none, st1)

/-- `Children.find_child(system_name)` on the materialised node list. -/
def findChild (env : Env) (st : ESState) (name : Option String) :
    Option Node × ESState :=
  match getNodesES env st with
  | (ns, st1) =>
    match ns with
    | [] => (none, st1)
    | n0 :: _ =>
      match name with
      | none => (some n0, st1)
      | some s => (ns.find? (fun n => n.sysName = some s), st1)

/-- `EntrySupportDefault.__clear_nodes`: clear the composite cache of the
storage (per-`_Info` node caches are kept). -/
def clearNodes (st : ESState) : ESState :=
  if st.storagePresent then { st with storageNodes := none } else st

/-- The loop of `EntrySupportDefault.__update_remove`: for each removed
entry, pop its `_Info` from the map (`KeyError`/`__check_info` failure
when absent), collect its cached nodes (`info.nodes(True)`), drop them
from the storage (`storage._remove(info)`) and drop the entry from the
active list. -/
def removeGo : List Entry → ESState → List Node → Option (ESState × List Node)
  | [], st, acc => some (st, acc)
  | e :: rest, st, acc =>
    match alookup st.map e with
    | none => none
    | some info =>
      match nodesForT st info with
      | none => none
      | some ns =>
        removeGo rest
          { st with map := aerase st.map e,
                    storageMap := aerase st.storageMap info.id,
                    entries := eraseFirst st.entries e }
          (acc ++ ns)

/-- `EntrySupportDefault.__update_remove`. -/
def updateRemove (st : ESState) (current : List Node) (toRemove : List Entry) :
    Option (ESState × List Event) :=
  match removeGo toRemove st [] with
  | none => none
  | some (st1, nodes) =>
    if nodes = [] then some (st1, [])
    else
      some (clearNodes st1,
            if st1.hasParent then [Event.removed nodes current] else [])

/-- First loop of `EntrySupportDefault.__update_order`: record each old
entry's starting offset (cumulative `_Info._length`), keyed by `_Info`
identity. -/
def offsetsGo (map : List (Entry × Info)) :
    List Entry → Nat → List (Nat × Nat) → Option (List (Nat × Nat))
  | [], _, acc => some acc
  | e :: rest, pos, acc =>
    match alookup map e with
    | none => none
    | some info => offsetsGo map rest (pos + info.length) (ainsert acc info.id pos)

/-- `perm[previous_pos + i] = 1 + current_pos + i` for `i in range(length)`. -/
def writeRange (perm : List Nat) (start : Nat) : Nat → Nat → List Nat
  | 0, _ => perm
  | l + 1, base => writeRange (perm.set start base) (start + 1) l (base + 1)

/-- Accumulator of the second `__update_order` loop. -/
structure OrderAcc where
  toAdd : List (Entry × Info)
  perm : List Nat
  currentPos : Nat
  permSize : Nat
  reordered : List Entry
  nextId : Nat
deriving DecidableEq, Repr

/-- Second loop of `EntrySupportDefault.__update_order` over the new entry
list: entries missing from the map become fresh `_Info`s to add; found
entries are kept (in new order) and contribute permutation cells when
their position changed. -/
def orderGo (map : List (Entry × Info)) (offsets : List (Nat × Nat)) :
    List Entry → OrderAcc → Option OrderAcc
  | [], acc => some acc
  | e :: rest, acc =>
    match alookup map e with
    | none =>
      let info : Info := ⟨acc.nextId, 0⟩
      orderGo map offsets rest
        { acc with toAdd := acc.toAdd ++ [(e, info)], nextId := acc.nextId + 1 }
    | some info =>
      match alookup offsets info.id with
      | none => none
      | some prev =>
        let acc1 := { acc with reordered := acc.reordered ++ [e] }
        let acc2 :=
          if acc1.currentPos ≠ prev then
            { acc1 with
                perm := writeRange acc1.perm prev info.length (1 + acc1.currentPos),
                permSize := acc1.permSize + info.length }
          else acc1
        orderGo map offsets rest { acc2 with currentPos := acc2.currentPos + info.length }

/-- Final pass over the permutation array:
`perm[i] = i if perm[i] == 0 else perm[i] - 1`. -/
def permFinalize : List Nat → Nat → List Nat
  | [], _ => []
  | v :: rest, i => (if v = 0 then i else v - 1) :: permFinalize rest (i + 1)

/-- `EntrySupportDefault.__update_order`: returns the `_Info`s to add, the
updated state and the reorder event (fired only when some position
changed and the children have a parent). -/
def updateOrder (st : ESState) (current : List Node) (newEntries : List Entry) :
    Option (List (Entry × Info) × ESState × List Event) :=
  match offsetsGo st.map st.entries 0 [] with
  | none => none
  | some offsets =>
    match orderGo st.map offsets newEntries
        ⟨[], List.replicate current.length 0, 0, 0, [], st.nextId⟩ with
    | none => none
    | some acc =>
      if 0 < acc.permSize then
        let perm := permFinalize acc.perm 0
        let st1 := clearNodes { st with entries := acc.reordered, nextId := acc.nextId }
        some (acc.toAdd, st1, if st.hasParent then [Event.reordered perm] else [])
      else
        some (acc.toAdd, { st with nextId := acc.nextId }, [])

/-- Loop of `EntrySupportDefault.__update_add`: compute (and cache) the
nodes of each fresh `_Info`, and put it in the map. -/
def addGo (env : Env) : List (Entry × Info) → ESState → List Node → ESState × List Node
  | [], st, acc => (st, acc)
  | (e, info) :: rest, st, acc =>
    match nodesForF env st e info with
    | (ns, info2, st2) =>
      addGo env rest { st2 with map := ainsert st2.map e info2 } (acc ++ ns)

/-- `EntrySupportDefault.__update_add`. -/
def updateAdd (env : Env) (st : ESState) (toAdd : List (Entry × Info))
    (newEntries : List Entry) : ESState × List Event :=
  match addGo env toAdd st [] with
  | (st1, nodes) =>
    let st2 := { st1 with entries := newEntries }
    if nodes = [] then (st2, [])
    else
      (clearNodes st2, if st2.hasParent then [Event.added nodes] else [])

/-- The initialised diff path of `EntrySupportDefault._set_entries`
(after `current = holder.nodes` succeeded): removals, then reorder, then
additions. -/
def diffPath (env : Env) (st : ESState) (current : List Node)
    (newEntries : List Entry) : Option (ESState × List Event) :=
  let toRemove := st.entries.filter (fun e => !(memB e newEntries))
  match (if toRemove = [] then some (st, ([] : List Event))
         else updateRemove st current toRemove) with
  | none => none
  | some (st1, evs1) =>
    match storageGetNodes env st1 with
    | (current2, st2) =>
      match updateOrder st2 current2 newEntries with
      | none => none
      | some (toAdd, st3, evs2) =>
        if toAdd = [] then some (st3, evs1 ++ evs2)
        else
          match updateAdd env st3 toAdd newEntries with
          | (st4, evs3) => some (st4, evs1 ++ evs2 ++ evs3)

/-- `EntrySupportDefault._set_entries(entries)`.  The three branches of the
source: the `__must_notify_set_entries` branch (force storage creation and
node computation, then diff), the uninitialised early return (record the
entry list and prune the map), and the initialised diff path. -/
def setEntries (env : Env) (st : ESState) (newEntries : List Entry) :
    Option (ESState × List Event) :=
  if st.mustNotify then
    let st1 := if st.storagePresent then st else getStorage st
    match storageGetNodes env { st1 with inited := true, mustNotify := false } with
    | (current, st2) => diffPath env st2 current newEntries
  else if st.storagePresent = false ∨ st.inited = false then
    some ({ st with entries := newEntries,
                    map := st.map.filter (fun p => memB p.1 newEntries) }, [])
  else
    match storageGetNodes env st with
    | (current, st1) => diffPath env st1 current newEntries

/-! ## Keys-level operations -/

/-- `Keys._KeyEntry.update_list`: wrap each key of the source sequence
into a per-occurrence-indexed entry (the `n`-th occurrence of an equal
key gets occurrence count `n`). -/
def updListGo : List Nat → List (Nat × Nat) → List Entry
  | [], _ => []
  | k :: rest, counter =>
    let c := (alookup counter k).getD 0
    Entry.keyEntry k c :: updListGo rest (ainsert counter k (c + 1))

/-- `update_list` starting from an empty occurrence counter. -/
def updateList (ks : List Nat) : List Entry :=
  updListGo ks []

/-- The entry list built by `Keys._set_keys(keys_set)` on a non-lazy Keys
children: the wrapped keys plus the inherited `Array` nodes entry
(appended at the end when `_before` is false, prepended otherwise). -/
def keysEntries (ks : List Nat) (before : Bool) : List Entry :=
  if before then Entry.arrayEntry 0 :: updateList ks
  else updateList ks ++ [Entry.arrayEntry 0]

/-- `Keys._set_keys(ks)` on a non-lazy Keys children with `_before = False`
(the default), as processed by `__apply_keys` under write access. -/
def setKeys (env : Env) (st : ESState) (ks : List Nat) :
    Option (ESState × List Event) :=
  setEntries env st (keysEntries ks false)

/-- A fresh, parent-attached non-lazy `Keys` children right after
`Children._entry_support` ran `Array._post_init_entry_support` (which
set the entry list to the single `__ArrayEntry` through the
uninitialised branch of `_set_entries`). -/
def keysFreshState : ESState :=
  { entries := [Entry.arrayEntry 0], map := [], storagePresent := false,
    storageNodes := none, storageMap := [], nextId := 0,
    mustNotify := false, inited := false, hasParent := true }

/-- Scenario driver: on a fresh Keys children, `set_keys(ks1)`, a
`get_nodes()` materialisation, then `set_keys(ks2)`; returns the nodes
after the first call, the events fired by the second call, and the nodes
after the second call. -/
def scenarioTwoSets (env : Env) (ks1 ks2 : List Nat) :
    Option (List Node × List Event × List Node) :=
  match setKeys env keysFreshState ks1 with
  | none => none
  | some (st1, _) =>
    match getNodesES env st1 with
    | (ns1, st2) =>
      match setKeys env st2 ks2 with
      | none => none
      | some (st3, evs) =>
        match getNodesES env st3 with
        | (ns2, _) => some (ns1, evs, ns2)

/-! ## Children variants: `add` / `remove`
(src/openide/nodes/_like_netbeans/children.py) -/

/-- `Children.Array.add(nodes)`: extend the raw collection, report whether
the length changed (and hence whether a refresh was posted). -/
def arrayAdd (collection nodes : List Node) : List Node × Bool :=
  let c := collection ++ nodes
  (c, decide (c.length ≠ collection.length))

/-- The per-node loop of `Children.Array.remove`: `collection.remove(node)`
for each node (raising `ValueError` when a node is absent). -/
def removeEachGo : List Node → List Node → Option (List Node)
  | col, [] => some col
  | col, n :: rest =>
    if memB n col then removeEachGo (eraseFirst col n) rest else none

/-- `Children.Array.remove(nodes)`: clear when the collection equals the
argument, otherwise remove each node; report whether the length changed. -/
def arrayRemove (collection nodes : List Node) : Option (List Node × Bool) :=
  match (if collection = nodes then some ([] : List Node)
         else removeEachGo collection nodes) with
  | none => none
  | some c => some (c, decide (c.length ≠ collection.length))

/-- `Children.Map.add(nodes)`: always `False`, no state touched. -/
def mapAdd (_nodes : List Node) : Bool := false

/-- `Children.Map.remove(nodes)`: always `False`, no state touched. -/
def mapRemove (_nodes : List Node) : Bool := false

/-- `Children.Keys` declares no `add` override: it inherits
`Children.Array.add` (the deprecated NetBeans `Keys.add` path). -/
def keysAdd : List Node → List Node → List Node × Bool :=
  arrayAdd

/-- `Children.Keys` declares no `remove` override: it inherits
`Children.Array.remove`. -/
def keysRemove : List Node → List Node → Option (List Node × Bool) :=
  arrayRemove

/-! ## Node listener registries
(src/openide/nodes/_like_netbeans/node.py) -/

/-- `Node.remove_node_listener(listener)`:
`self._node_listeners.remove(listener)` wrapped in
`try ... except ValueError: pass`. -/
def removeNodeListener (ls : List Nat) (l : Nat) : List Nat :=
  if memB l ls then eraseFirst ls l else ls

/-- `Node.remove_property_change_listener(listener)`: a bare
`self._property_listeners.remove(listener)` — `list.remove` raises
`ValueError` when the listener is not registered. -/
def removePropertyChangeListener (ls : List Nat) (l : Nat) :
    Except String (List Nat) :=
  if memB l ls then Except.ok (eraseFirst ls l)
  else Except.error "ValueError: list.remove(x): x not in list"

/-! ## Mutex post-request logic (src/openide/utils/mutex.py)

The model covers the decision made by
`DefaultMutexImplementation._post_request` and the guard of
`post_write_request`, from the point of view of the calling thread:
`MState.threadInfo` is `self._registered_threads.get(current_thread)`,
`readersNum` is `self._readers_num`.  `_enter`/`_leave` rebalance the
counts around a synchronously-run callback, so a `ranReentrant` outcome
leaves the observable state unchanged. -/

/-- `DefaultMutexImplementation._Modes` (NONE is `mNone`). -/
inductive MMode where
  | mNone
  | chain
  | excl
  | shared
deriving DecidableEq, Repr

/-- The `_ThreadInfo` of the calling thread: its mode, its per-mode entry
counts, and its two `post_requests` queues (callbacks as numeric ids). -/
structure MThreadInfo where
  mode : MMode
  countShared : Nat
  countExcl : Nat
  postShared : List Nat
  postExcl : List Nat
deriving DecidableEq, Repr

/-- The mutex state visible to the calling thread. -/
structure MState where
  threadInfo : Option MThreadInfo
  readersNum : Nat
deriving DecidableEq, Repr

/-- How a posted request is served. -/
inductive PostOutcome where
  /-- The calling thread re-enters its own mode and the callback runs
  synchronously (then `_leave` restores the counts). -/
  | ranReentrant
  /-- The callback is appended to the thread's `post_requests` queue for
  the requested mode, to be drained by `_leave` when the thread fully
  releases that access. -/
  | queued
  /-- The thread holds nothing: `_enter` (waiting for the lock if an
  incompatible mode is granted), run the callback, `_leave`. -/
  | acquiredFresh
deriving DecidableEq, Repr

/-- `idx = (SHARED.value + EXCL.value) - mutex_mode.value`: the count of
the mode other than the requested one. -/
def otherCount (info : MThreadInfo) (mode : MMode) : Nat :=
  if mode = MMode.shared then info.countExcl else info.countShared

/-- `DefaultMutexImplementation._post_request(mutex_mode, run)`. -/
def postRequest (mode : MMode) (cb : Nat) (st : MState) : PostOutcome × MState :=
  match st.threadInfo with
  | some info =>
    if mode = info.mode ∧ otherCount info mode = 0 then
      (PostOutcome.ranReentrant, st)
    else if mode = MMode.shared then
      (PostOutcome.queued,
       { st with threadInfo := some ({ info with postShared := info.postShared ++ [cb] }) })
    else
      (PostOutcome.queued,
       { st with threadInfo := some ({ info with postExcl := info.postExcl ++ [cb] }) })
  | none => (PostOutcome.acquiredFresh, st)

/-- `DefaultMutexImplementation.post_read_request(run)`. -/
def postReadRequest (cb : Nat) (st : MState) : PostOutcome × MState :=
  postRequest MMode.shared cb st

/-- `DefaultMutexImplementation.post_write_request(run)`:
raises when the calling thread owns the internal state lock
(`self._LOCK._is_owned()`, true only inside an internal mutex operation),
otherwise delegates to `_post_request(EXCL, run)`.  Holding read or write
access does not make `_LOCK` owned. -/
def postWriteRequest (lockOwned : Bool) (cb : Nat) (st : MState) :
    Except String (PostOutcome × MState) :=
  if lockOwned then
    Except.error "Cannot post write request while we are doing some mutex operation"
  else
    Except.ok (postRequest MMode.excl cb st)

/-- `DefaultMutexImplementation._can_upgrade(thread_mode, requested)`:
an in-place SHARED → EXCL upgrade is legal when the calling thread is
the sole reader. -/
def canUpgrade (threadMode requested : MMode) (readersNum : Nat) : Bool :=
  threadMode = MMode.shared ∧ requested = MMode.excl ∧ readersNum = 1

/-! ## Verification infrastructure -/

/-- Alignment of an entry list with an offsets table: walking the list
from position `pos`, every entry's `_Info` offset equals the running
cumulative length.  This is the situation of `__update_order` when the
new entry order coincides with the old one. -/
inductive OffsAligned (map : List (Entry × Info)) (offs : List (Nat × Nat)) :
    List Entry → Nat → Prop where
  | nil (pos : Nat) : OffsAligned map offs [] pos
  | cons (e : Entry) (rest : List Entry) (pos : Nat) (info : Info)
      (hm : alookup map e = some info)
      (ho : alookup offs info.id = some pos)
      (hr : OffsAligned map offs rest (pos + info.length)) :
      OffsAligned map offs (e :: rest) pos

/-- Well-formedness of an `EntrySupportDefault` state as realised by the
Python object model: the `__map` dict has no duplicate entry keys, its
`_Info` values are pairwise distinct objects, and every `_Info` identity
was produced by the fresh-identity counter. -/
def ESWF (st : ESState) : Prop :=
  (st.map.map Prod.fst).Nodup ∧
  (st.map.map (fun p => p.2.id)).Nodup ∧
  ∀ p ∈ st.map, p.2.id < st.nextId

/-! ## Demonstration environment and states (used by witnesses) -/

/-- A concrete client: key `k` produces the single node `100 + k`. -/
def envDemo : Env :=
  { createNodes := fun k => [⟨100 + k, none⟩], collection := fun _ => [] }

/-- The fresh Keys children after `set_keys([0, 1])` (uninitialised path). -/
def demoStep1 : ESState :=
  ((setKeys envDemo keysFreshState [0, 1]).getD (keysFreshState, [])).1

/-- `demoStep1` after a `get_nodes()` materialisation: an initialised
Keys children holding nodes `[100, 101]`. -/
def demoSt : ESState :=
  (getNodesES envDemo demoStep1).2

/-- An initialised, empty `EntrySupportDefault` (storage wired, no
entries yet), used to witness the consistency-invariant theorem. -/
def c7State : ESState :=
  { entries := [], map := [], storagePresent := true, storageNodes := none,
    storageMap := [], nextId := 0, mustNotify := false, inited := true,
    hasParent := false }

/-- The result of `set_keys([1, 0])` on `demoSt` (a pure reorder). -/
def demoReorderRun : ESState × List Event :=
  (setKeys envDemo demoSt [1, 0]).getD (keysFreshState, [])

/-- The canonical client for the reorder scenario: keys `0`, `1`, `2`
materialise the single nodes `A`, `B`, `C` respectively, any other key
materialises nothing, and the inherited `Array` collection is empty. -/
def envTriple (A B C : Node) : Env :=
  { createNodes := fun k =>
      if k = 0 then [A] else if k = 1 then [B] else if k = 2 then [C] else [],
    collection := fun _ => [] }

/-- The fresh Keys children after `set_keys([0, 1, 2])` (uninitialised
branch of `_set_entries`). -/
def c1AfterSetKeys : ESState :=
  { entries := [Entry.keyEntry 0 0, Entry.keyEntry 1 0, Entry.keyEntry 2 0,
      Entry.arrayEntry 0],
    map := [], storagePresent := false, storageNodes := none,
    storageMap := [], nextId := 0, mustNotify := false, inited := false,
    hasParent := true }

/-- `c1AfterSetKeys` after a `get_nodes()` materialisation: the active
entries materialise the old order `[A, B, C]`. -/
def c1Materialised (A B C : Node) : ESState :=
  { entries := [Entry.keyEntry 0 0, Entry.keyEntry 1 0, Entry.keyEntry 2 0,
      Entry.arrayEntry 0],
    map := [(Entry.keyEntry 0 0, ⟨0, 1⟩), (Entry.keyEntry 1 0, ⟨1, 1⟩),
      (Entry.keyEntry 2 0, ⟨2, 1⟩), (Entry.arrayEntry 0, ⟨3, 0⟩)],
    storagePresent := true, storageNodes := some [A, B, C],
    storageMap := [(0, [A]), (1, [B]), (2, [C]), (3, [])], nextId := 4,
    mustNotify := false, inited := true, hasParent := true }

/-- The state right after the reordering `set_keys([2, 0, 1])`: entries
in new order, composite node cache cleared, per-entry caches kept. -/
def c1Reordered (A B C : Node) : ESState :=
  { entries := [Entry.keyEntry 2 0, Entry.keyEntry 0 0, Entry.keyEntry 1 0,
      Entry.arrayEntry 0],
    map := [(Entry.keyEntry 0 0, ⟨0, 1⟩), (Entry.keyEntry 1 0, ⟨1, 1⟩),
      (Entry.keyEntry 2 0, ⟨2, 1⟩), (Entry.arrayEntry 0, ⟨3, 0⟩)],
    storagePresent := true, storageNodes := none,
    storageMap := [(0, [A]), (1, [B]), (2, [C]), (3, [])], nextId := 4,
    mustNotify := false, inited := true, hasParent := true }

/-- `c1Reordered` after the final `get_nodes()` recomputation. -/
def c1Final (A B C : Node) : ESState :=
  { entries := [Entry.keyEntry 2 0, Entry.keyEntry 0 0, Entry.keyEntry 1 0,
      Entry.arrayEntry 0],
    map := [(Entry.keyEntry 0 0, ⟨0, 1⟩), (Entry.keyEntry 1 0, ⟨1, 1⟩),
      (Entry.keyEntry 2 0, ⟨2, 1⟩), (Entry.arrayEntry 0, ⟨3, 0⟩)],
    storagePresent := true, storageNodes := some [C, A, B],
    storageMap := [(0, [A]), (1, [B]), (2, [C]), (3, [])], nextId := 4,
    mustNotify := false, inited := true, hasParent := true }

/-! ## Basic list lemmas -/

theorem memB_iff {α : Type} [DecidableEq α] (a : α) (l : List α) :
    memB a l = true ↔ a ∈ l := by
  induction l with
  | nil => simp [memB]
  | cons x rest ih =>
    by_cases hx : x = a
    · subst hx; simp [memB]
    · simp [memB, hx, ih, Ne.symm hx]

theorem memB_eq_false {α : Type} [DecidableEq α] {a : α} {l : List α}
    (h : a ∉ l) : memB a l = false := by
  cases hm : memB a l
  · rfl
  · exact absurd ((memB_iff a l).mp hm) h

theorem eraseFirst_length {α : Type} [DecidableEq α] {l : List α} {a : α}
    (h : a ∈ l) : (eraseFirst l a).length + 1 = l.length := by
  induction l with
  | nil => cases h
  | cons x rest ih =>
    by_cases hx : x = a
    · simp [eraseFirst, hx]
    · rcases List.mem_cons.mp h with h1 | h1
      · exact absurd h1.symm hx
      · simp [eraseFirst, hx, ih h1]

theorem removeEachGo_length (ns : List Node) :
    ∀ col c, removeEachGo col ns = some c → c.length + ns.length = col.length := by
  induction ns with
  | nil =>
    intro col c h
    simp only [removeEachGo] at h
    cases h
    simp
  | cons n rest ih =>
    intro col c h
    simp only [removeEachGo] at h
    split at h
    · have h1 := ih _ _ h
      have hm : n ∈ col := (memB_iff n col).mp (by assumption)
      have h2 := eraseFirst_length hm
      simp only [List.length_cons]
      omega
    · cases h

/-! ## Association-list lemmas -/

theorem alookup_append {α β : Type} [DecidableEq α]
    (m m2 : List (α × β)) (a : α) :
    alookup (m ++ m2) a
      = match alookup m a with
        | some v => some v
        | none => alookup m2 a := by
  induction m with
  | nil => simp [alookup]
  | cons kv rest ih =>
    by_cases hk : kv.1 = a
    · simp [alookup, hk]
    · simpa [alookup, hk] using ih

theorem alookup_areplace_self {α β : Type} [DecidableEq α]
    (m : List (α × β)) (a : α) (b : β) (h : (alookup m a).isSome = true) :
    alookup (areplace m a b) a = some b := by
  induction m with
  | nil => simp [alookup] at h
  | cons kv rest ih =>
    obtain ⟨k, v⟩ := kv
    by_cases hk : k = a
    · simp [areplace, hk, alookup]
    · simp only [areplace, if_neg hk, alookup]
      exact ih (by simpa [alookup, hk] using h)

theorem alookup_areplace_other {α β : Type} [DecidableEq α]
    (m : List (α × β)) (a a' : α) (b : β) (h : a' ≠ a) :
    alookup (areplace m a b) a' = alookup m a' := by
  induction m with
  | nil => simp [areplace]
  | cons kv rest ih =>
    obtain ⟨k, v⟩ := kv
    by_cases hk : k = a
    · simp only [areplace, if_pos hk, alookup]
      rw [if_neg (show ¬(a = a') from fun hh => h hh.symm),
        if_neg (show ¬(k = a') from by rw [hk]; exact fun hh => h hh.symm)]
      exact ih
    · simp only [areplace, if_neg hk, alookup]
      by_cases hk2 : k = a'
      · rw [if_pos hk2, if_pos hk2]
      · rw [if_neg hk2, if_neg hk2]
        exact ih

theorem alookup_ainsert_self {α β : Type} [DecidableEq α]
    (m : List (α × β)) (a : α) (b : β) :
    alookup (ainsert m a b) a = some b := by
  by_cases hs : (alookup m a).isSome = true
  · rw [ainsert, if_pos hs]
    exact alookup_areplace_self m a b hs
  · rw [ainsert, if_neg hs]
    rw [alookup_append]
    have hn : alookup m a = none := by
      cases he : alookup m a
      · rfl
      · rw [he] at hs
        simp at hs
    rw [hn]
    simp [alookup]

theorem alookup_ainsert_other {α β : Type} [DecidableEq α]
    (m : List (α × β)) (a a' : α) (b : β) (h : a' ≠ a) :
    alookup (ainsert m a b) a' = alookup m a' := by
  by_cases hs : (alookup m a).isSome = true
  · rw [ainsert, if_pos hs]
    exact alookup_areplace_other m a a' b h
  · rw [ainsert, if_neg hs]
    rw [alookup_append]
    cases he : alookup m a'
    · simp [alookup, Ne.symm h]
    · rfl

theorem alookup_none_iff {α β : Type} [DecidableEq α]
    (m : List (α × β)) (a : α) :
    alookup m a = none ↔ a ∉ m.map Prod.fst := by
  induction m with
  | nil => simp [alookup]
  | cons kv rest ih =>
    by_cases hk : kv.1 = a
    · simp [alookup, hk]
    · simp [alookup, hk, ih, Ne.symm hk]

theorem alookup_isSome_iff {α β : Type} [DecidableEq α]
    (m : List (α × β)) (a : α) :
    (alookup m a).isSome = true ↔ a ∈ m.map Prod.fst := by
  constructor
  · intro h
    by_contra hmem
    rw [(alookup_none_iff m a).mpr hmem] at h
    simp at h
  · intro hmem
    cases he : alookup m a
    · exact absurd ((alookup_none_iff m a).mp he) (by simp [hmem])
    · simp

theorem alookup_mem {α β : Type} [DecidableEq α]
    {m : List (α × β)} {a : α} {b : β} (h : alookup m a = some b) :
    (a, b) ∈ m := by
  induction m with
  | nil => cases h
  | cons kv rest ih =>
    obtain ⟨k, v⟩ := kv
    by_cases hk : k = a
    · simp only [alookup, if_pos hk] at h
      cases h
      subst hk
      exact List.mem_cons_self _ _
    · simp only [alookup, if_neg hk] at h
      exact List.mem_cons_of_mem _ (ih h)

theorem areplace_keys {α β : Type} [DecidableEq α]
    (m : List (α × β)) (a : α) (b : β) :
    (areplace m a b).map Prod.fst = m.map Prod.fst := by
  induction m with
  | nil => simp [areplace]
  | cons kv rest ih =>
    obtain ⟨k, v⟩ := kv
    by_cases hk : k = a
    · simp [areplace, hk, ih]
    · simp [areplace, hk, ih]

theorem ainsert_keys_present {α β : Type} [DecidableEq α]
    {m : List (α × β)} {a : α} (b : β) (h : (alookup m a).isSome = true) :
    (ainsert m a b).map Prod.fst = m.map Prod.fst := by
  rw [ainsert, if_pos h]
  exact areplace_keys m a b

theorem ainsert_keys_absent {α β : Type} [DecidableEq α]
    {m : List (α × β)} {a : α} (b : β) (h : alookup m a = none) :
    (ainsert m a b).map Prod.fst = m.map Prod.fst ++ [a] := by
  rw [ainsert, if_neg (by simp [h])]
  simp

theorem areplace_of_not_mem {α β : Type} [DecidableEq α]
    {m : List (α × β)} {a : α} (b : β) (h : a ∉ m.map Prod.fst) :
    areplace m a b = m := by
  induction m with
  | nil => simp [areplace]
  | cons kv rest ih =>
    obtain ⟨k, v⟩ := kv
    simp only [List.map_cons, List.mem_cons] at h
    push_neg at h
    simp only [areplace]
    rw [if_neg (show ¬(k = a) from fun hh => h.1 hh.symm), ih h.2]

theorem ainsert_map_of_lookup {α β γ : Type} [DecidableEq α]
    {m : List (α × β)} {a : α} {b v : β} (g : α × β → γ)
    (hnd : (m.map Prod.fst).Nodup)
    (hl : alookup m a = some v) (hg : g (a, b) = g (a, v)) :
    (ainsert m a b).map g = m.map g := by
  rw [ainsert, if_pos (by simp [hl])]
  induction m with
  | nil => cases hl
  | cons kv rest ih =>
    obtain ⟨k, v1⟩ := kv
    simp only [List.map_cons, List.nodup_cons] at hnd
    by_cases hk : k = a
    · subst hk
      simp only [alookup, eq_self_iff_true, if_true, Option.some.injEq] at hl
      subst hl
      simp only [areplace, eq_self_iff_true, if_true, List.map_cons, hg]
      rw [areplace_of_not_mem b hnd.1]
    · simp only [alookup, if_neg hk] at hl
      simp only [areplace, if_neg hk, List.map_cons]
      rw [ih hnd.2 hl]

theorem aerase_sublist {α β : Type} [DecidableEq α]
    (m : List (α × β)) (a : α) : (aerase m a).Sublist m := by
  induction m with
  | nil => simp [aerase]
  | cons kv rest ih =>
    by_cases hk : kv.1 = a
    · simp only [aerase, if_pos hk]
      exact (List.sublist_cons_self kv rest)
    · simp only [aerase, if_neg hk]
      exact ih.cons₂ kv

theorem aerase_keys {α β : Type} [DecidableEq α]
    (m : List (α × β)) (a : α) :
    (aerase m a).map Prod.fst = eraseFirst (m.map Prod.fst) a := by
  induction m with
  | nil => simp [aerase, eraseFirst]
  | cons kv rest ih =>
    by_cases hk : kv.1 = a
    · simp [aerase, eraseFirst, hk]
    · simp [aerase, eraseFirst, hk, ih]

theorem eraseFirst_sublist {α : Type} [DecidableEq α]
    (l : List α) (a : α) : (eraseFirst l a).Sublist l := by
  induction l with
  | nil => simp [eraseFirst]
  | cons x rest ih =>
    by_cases hx : x = a
    · simp only [eraseFirst, if_pos hx]
      exact List.sublist_cons_self x rest
    · simp only [eraseFirst, if_neg hx]
      exact ih.cons₂ x

theorem eraseFirst_eq_erase {α : Type} [DecidableEq α]
    (l : List α) (a : α) : eraseFirst l a = l.erase a := by
  induction l with
  | nil => simp [eraseFirst]
  | cons x rest ih =>
    rw [List.erase_cons]
    by_cases hx : x = a
    · simp [eraseFirst, hx]
    · simp only [eraseFirst, if_neg hx, ih]
      rw [if_neg (by simpa using hx)]

theorem perm_eraseFirst {α : Type} [DecidableEq α]
    {l1 l2 : List α} (a : α) (h : l1.Perm l2) :
    (eraseFirst l1 a).Perm (eraseFirst l2 a) := by
  rw [eraseFirst_eq_erase, eraseFirst_eq_erase]
  exact h.erase a

/-! ## Occurrence-count lemmas -/

theorem countOcc_eq_zero {α : Type} [DecidableEq α] (a : α) (l : List α) :
    countOcc a l = 0 ↔ a ∉ l := by
  induction l with
  | nil => simp [countOcc]
  | cons x rest ih =>
    by_cases hx : x = a
    · simp [countOcc, hx]
    · simp [countOcc, hx, ih, Ne.symm hx]

theorem countOcc_eraseFirst_self {α : Type} [DecidableEq α] (a : α)
    (l : List α) : countOcc a (eraseFirst l a) = countOcc a l - 1 := by
  induction l with
  | nil => simp [eraseFirst, countOcc]
  | cons x rest ih =>
    by_cases hx : x = a
    · simp [eraseFirst, countOcc, hx]
    · simp [eraseFirst, countOcc, hx, ih]

theorem countOcc_eraseFirst_other {α : Type} [DecidableEq α] {a y : α}
    (l : List α) (h : a ≠ y) :
    countOcc a (eraseFirst l y) = countOcc a l := by
  induction l with
  | nil => simp [eraseFirst]
  | cons x rest ih =>
    by_cases hx : x = y
    · simp [eraseFirst, countOcc, hx, Ne.symm h]
    · simp [eraseFirst, countOcc, hx, ih]

theorem countOcc_eraseList {α : Type} [DecidableEq α] (a : α)
    (tr : List α) : ∀ l, countOcc a (eraseList l tr)
      = countOcc a l - countOcc a tr := by
  induction tr with
  | nil => simp [eraseList, countOcc]
  | cons y rest ih =>
    intro l
    simp only [eraseList, countOcc, ih]
    by_cases hy : y = a
    · subst hy
      rw [countOcc_eraseFirst_self]
      simp only [eq_self_iff_true, if_true]
      omega
    · rw [countOcc_eraseFirst_other l (Ne.symm hy)]
      simp [hy]

theorem countOcc_filter_pos {α : Type} [DecidableEq α] {a : α}
    {q : α → Bool} (l : List α) (h : q a = true) :
    countOcc a (l.filter q) = countOcc a l := by
  induction l with
  | nil => simp
  | cons x rest ih =>
    by_cases hx : x = a
    · subst hx
      simp [List.filter_cons, h, countOcc, ih]
    · by_cases hq : q x = true
      · simp [List.filter_cons, hq, countOcc, hx, ih]
      · simp only [List.filter_cons, hq, Bool.false_eq_true, if_false]
        simp [countOcc, hx, ih]

/-! ## Key-entry list lemmas -/

theorem updListGo_count_ge (ks : List Nat) :
    ∀ counter k c, Entry.keyEntry k c ∈ updListGo ks counter →
      (alookup counter k).getD 0 ≤ c := by
  induction ks with
  | nil => simp [updListGo]
  | cons k0 rest ih =>
    intro counter k c hmem
    simp only [updListGo, List.mem_cons] at hmem
    rcases hmem with h | h
    · obtain ⟨rfl, rfl⟩ := Entry.keyEntry.injEq .. |>.mp h.symm
      exact Nat.le_refl _
    · have h2 := ih (ainsert counter k0 ((alookup counter k0).getD 0 + 1)) k c h
      by_cases hk : k = k0
      · subst hk
        rw [alookup_ainsert_self] at h2
        simp at h2
        omega
      · rwa [alookup_ainsert_other _ _ _ _ hk] at h2

theorem updListGo_nodup (ks : List Nat) :
    ∀ counter, (updListGo ks counter).Nodup := by
  induction ks with
  | nil => simp [updListGo]
  | cons k0 rest ih =>
    intro counter
    simp only [updListGo, List.nodup_cons]
    refine ⟨?_, ih _⟩
    intro hmem
    have h2 := updListGo_count_ge rest _ _ _ hmem
    rw [alookup_ainsert_self] at h2
    simp at h2

theorem updListGo_shape (ks : List Nat) :
    ∀ counter e, e ∈ updListGo ks counter → ∃ k c, e = Entry.keyEntry k c := by
  induction ks with
  | nil => simp [updListGo]
  | cons k0 rest ih =>
    intro counter e hmem
    simp only [updListGo, List.mem_cons] at hmem
    rcases hmem with h | h
    · exact ⟨_, _, h⟩
    · exact ih _ e h

theorem keysEntries_nodup (ks : List Nat) (b : Bool) :
    (keysEntries ks b).Nodup := by
  cases b
  · simp only [keysEntries, Bool.false_eq_true, if_false]
    rw [List.nodup_append]
    refine ⟨updListGo_nodup ks [], by simp, ?_⟩
    intro e hmem
    obtain ⟨k, c, rfl⟩ := updListGo_shape ks [] e hmem
    simp
  · simp only [keysEntries, if_true]
    rw [List.nodup_cons]
    refine ⟨?_, updListGo_nodup ks []⟩
    intro hmem
    obtain ⟨k, c, he⟩ := updListGo_shape ks [] _ hmem
    cases he

/-! ## Erase-list and filter lemmas -/

theorem perm_eraseList {α : Type} [DecidableEq α] (tr : List α) :
    ∀ {l1 l2 : List α}, l1.Perm l2 → (eraseList l1 tr).Perm (eraseList l2 tr) := by
  induction tr with
  | nil => intro l1 l2 h; simpa [eraseList] using h
  | cons x rest ih =>
    intro l1 l2 h
    simp only [eraseList]
    exact ih (perm_eraseFirst x h)

theorem eraseList_of_filter_mem {α : Type} [DecidableEq α]
    (l : List α) (E : List α) :
    ∀ x ∈ eraseList l (l.filter (fun e => !(memB e E))), memB x E = true := by
  intro x hx
  by_contra hmem
  have hq : (fun e => !(memB e E)) x = true := by
    simp only [Bool.not_eq_true']
    exact Bool.not_eq_true _ |>.mp hmem
  have hcount : countOcc x (l.filter (fun e => !(memB e E))) = countOcc x l :=
    countOcc_filter_pos l hq
  have hz : countOcc x (eraseList l (l.filter (fun e => !(memB e E)))) = 0 := by
    rw [countOcc_eraseList, hcount]
    omega
  exact ((countOcc_eq_zero x _).mp hz) hx

theorem filter_not_mem_empty {α : Type} [DecidableEq α]
    (l : List α) (E : List α) (h : ∀ x ∈ l, memB x E = true) :
    l.filter (fun e => !(memB e E)) = [] := by
  induction l with
  | nil => simp
  | cons x rest ih =>
    rw [List.filter_cons]
    rw [h x (List.mem_cons_self x rest), if_neg (by simp)]
    exact ih (fun y hy => h y (List.mem_cons_of_mem x hy))

/-! ## Removal-phase lemmas -/

theorem removeGo_spec (tr : List Entry) :
    ∀ st acc st1 nodes, removeGo tr st acc = some (st1, nodes) →
      st1.entries = eraseList st.entries tr ∧
      st1.map.map Prod.fst = eraseList (st.map.map Prod.fst) tr ∧
      st1.map.Sublist st.map ∧
      st1.storagePresent = st.storagePresent ∧
      st1.storageNodes = st.storageNodes ∧
      st1.nextId = st.nextId ∧
      st1.mustNotify = st.mustNotify ∧
      st1.inited = st.inited ∧
      st1.hasParent = st.hasParent := by
  induction tr with
  | nil =>
    intro st acc st1 nodes h
    simp only [removeGo, Option.some.injEq, Prod.mk.injEq] at h
    obtain ⟨rfl, -⟩ := h
    simp [eraseList]
  | cons e rest ih =>
    intro st acc st1 nodes h
    simp only [removeGo] at h
    split at h
    · cases h
    · rename_i info hinfo
      split at h
      · cases h
      · rename_i ns hns
        obtain ⟨h1, h2, h3, h4, h5, h6, h7, h8, h9⟩ := ih _ _ _ _ h
        refine ⟨?_, ?_, ?_, h4, h5, h6, h7, h8, h9⟩
        · simpa [eraseList] using h1
        · rw [h2]
          simp only [eraseList]
          rw [aerase_keys]
        · exact h3.trans (aerase_sublist st.map e)

theorem updateRemove_spec {st : ESState} {cur : List Node} {tr : List Entry}
    {st1 : ESState} {evs : List Event}
    (h : updateRemove st cur tr = some (st1, evs)) :
    st1.entries = eraseList st.entries tr ∧
    st1.map.map Prod.fst = eraseList (st.map.map Prod.fst) tr ∧
    st1.map.Sublist st.map ∧
    st1.storagePresent = st.storagePresent ∧
    (st1.storageNodes = st.storageNodes ∨ st1.storageNodes = none) ∧
    st1.nextId = st.nextId ∧
    st1.mustNotify = st.mustNotify ∧
    st1.inited = st.inited ∧
    st1.hasParent = st.hasParent := by
  simp only [updateRemove] at h
  split at h
  · cases h
  · rename_i stx nodes hgo
    obtain ⟨h1, h2, h3, h4, h5, h6, h7, h8, h9⟩ := removeGo_spec tr _ _ _ _ hgo
    split at h
    · simp only [Option.some.injEq, Prod.mk.injEq] at h
      obtain ⟨rfl, -⟩ := h
      exact ⟨h1, h2, h3, h4, Or.inl h5, h6, h7, h8, h9⟩
    · simp only [Option.some.injEq, Prod.mk.injEq] at h
      obtain ⟨rfl, -⟩ := h
      simp only [clearNodes]
      split
      · exact ⟨h1, h2, h3, h4, Or.inr rfl, h6, h7, h8, h9⟩
      · exact ⟨h1, h2, h3, h4, Or.inl h5, h6, h7, h8, h9⟩

/-! ## Materialisation-phase lemmas -/

theorem areplace_self {α β : Type} [DecidableEq α] {m : List (α × β)}
    {a : α} {v : β} (hnd : (m.map Prod.fst).Nodup)
    (h : alookup m a = some v) : areplace m a v = m := by
  induction m with
  | nil => cases h
  | cons kv rest ih =>
    obtain ⟨k, b⟩ := kv
    simp only [List.map_cons, List.nodup_cons] at hnd
    by_cases hk : k = a
    · subst hk
      simp only [alookup, eq_self_iff_true, if_true, Option.some.injEq] at h
      subst h
      simp only [areplace, eq_self_iff_true, if_true]
      rw [areplace_of_not_mem b hnd.1]
    · simp only [alookup, if_neg hk] at h
      simp only [areplace, if_neg hk]
      rw [ih hnd.2 h]

theorem computeGo_preserves (env : Env) (L : List Entry) :
    ∀ st ns st1, (st.map.map Prod.fst).Nodup →
      (∀ e ∈ L, (alookup st.map e).isSome = true) →
      computeGo env L st = (ns, st1) →
      st1.entries = st.entries ∧
      st1.map.map Prod.fst = st.map.map Prod.fst ∧
      st1.map.map (fun p => p.2.id) = st.map.map (fun p => p.2.id) ∧
      st1.nextId = st.nextId ∧
      st1.storagePresent = st.storagePresent ∧
      st1.mustNotify = st.mustNotify ∧
      st1.inited = st.inited ∧
      st1.hasParent = st.hasParent := by
  induction L with
  | nil =>
    intro st ns st1 hnd hall h
    simp only [computeGo, Prod.mk.injEq] at h
    obtain ⟨-, rfl⟩ := h
    simp
  | cons e rest ih =>
    intro st ns st1 hnd hall h
    obtain ⟨info, he⟩ := Option.isSome_iff_exists.mp
      (hall e (List.mem_cons_self e rest))
    have hall2 : ∀ x ∈ rest, (alookup st.map x).isSome = true :=
      fun x hx => hall x (List.mem_cons_of_mem e hx)
    cases hsm : alookup st.storageMap info.id with
    | some ns0 =>
      have hmap : ainsert st.map e info = st.map := by
        rw [ainsert, if_pos (by simp [he])]
        exact areplace_self hnd he
      simp only [computeGo, findInfo, he, nodesForF, hsm, hmap] at h
      simp only [Prod.mk.injEq] at h
      obtain ⟨-, rfl⟩ := h
      exact ih st _ _ hnd hall2 rfl
    | none =>
      simp only [computeGo, findInfo, he, nodesForF, hsm] at h
      simp only [Prod.mk.injEq] at h
      obtain ⟨-, rfl⟩ := h
      have hkeq : (ainsert st.map e
            { info with length := (Entry.nodesOf env e).length }).map Prod.fst
          = st.map.map Prod.fst := ainsert_keys_present _ (by simp [he])
      have hieq : (ainsert st.map e
            { info with length := (Entry.nodesOf env e).length }).map
              (fun p => p.2.id)
          = st.map.map (fun p => p.2.id) :=
        ainsert_map_of_lookup _ hnd he rfl
      obtain ⟨g1, g2, g3, g4, g5, g6, g7, g8⟩ :=
        ih { st with
              storageMap := ainsert st.storageMap info.id (Entry.nodesOf env e),
              map := ainsert st.map e
                { info with length := (Entry.nodesOf env e).length } }
          _ _ (by simpa only [hkeq] using hnd)
          (by
            intro x hx
            rw [alookup_isSome_iff]
            show x ∈ (ainsert st.map e
              { info with length := (Entry.nodesOf env e).length }).map Prod.fst
            rw [hkeq, ← alookup_isSome_iff]
            exact hall2 x hx)
          rfl
      exact ⟨g1, by rw [g2]; exact hkeq, by rw [g3]; exact hieq, g4, g5, g6, g7, g8⟩

theorem storageGetNodes_preserves (env : Env) (st : ESState)
    (hnd : (st.map.map Prod.fst).Nodup)
    (hall : ∀ e ∈ st.entries, (alookup st.map e).isSome = true) :
    ∀ ns st1, storageGetNodes env st = (ns, st1) →
      st1.entries = st.entries ∧
      st1.map.map Prod.fst = st.map.map Prod.fst ∧
      st1.map.map (fun p => p.2.id) = st.map.map (fun p => p.2.id) ∧
      st1.nextId = st.nextId ∧
      st1.storagePresent = st.storagePresent ∧
      st1.mustNotify = st.mustNotify ∧
      st1.inited = st.inited ∧
      st1.hasParent = st.hasParent ∧
      st1.storageNodes = some ns := by
  intro ns st1 h
  simp only [storageGetNodes] at h
  split at h
  · rename_i ns0 hsome
    simp only [Prod.mk.injEq] at h
    obtain ⟨rfl, rfl⟩ := h
    exact ⟨rfl, rfl, rfl, rfl, rfl, rfl, rfl, rfl, hsome⟩
  · rename_i hnone
    simp only [Prod.mk.injEq] at h
    obtain ⟨rfl, rfl⟩ := h
    obtain ⟨g1, g2, g3, g4, g5, g6, g7, g8⟩ :=
      computeGo_preserves env st.entries st _ _ hnd hall rfl
    exact ⟨g1, g2, g3, g4, g5, g6, g7, g8, rfl⟩

/-! ## Well-formedness helper lemmas -/

theorem mem_areplace {α β : Type} [DecidableEq α]
    {m : List (α × β)} {a : α} {b : β} {p : α × β}
    (h : p ∈ areplace m a b) : p ∈ m ∨ p = (a, b) := by
  induction m with
  | nil => simp [areplace] at h
  | cons kv rest ih =>
    obtain ⟨k, v⟩ := kv
    by_cases hk : k = a
    · rw [areplace, if_pos hk] at h
      rcases List.mem_cons.mp h with h1 | h1
      · exact Or.inr h1
      · rcases ih h1 with h2 | h2
        · exact Or.inl (List.mem_cons_of_mem _ h2)
        · exact Or.inr h2
    · rw [areplace, if_neg hk] at h
      rcases List.mem_cons.mp h with h1 | h1
      · exact Or.inl (h1 ▸ List.mem_cons_self _ _)
      · rcases ih h1 with h2 | h2
        · exact Or.inl (List.mem_cons_of_mem _ h2)
        · exact Or.inr h2

theorem mem_ainsert {α β : Type} [DecidableEq α]
    {m : List (α × β)} {a : α} {b : β} {p : α × β}
    (h : p ∈ ainsert m a b) : p ∈ m ∨ p = (a, b) := by
  by_cases hs : (alookup m a).isSome = true
  · rw [ainsert, if_pos hs] at h
    exact mem_areplace h
  · rw [ainsert, if_neg hs] at h
    rcases List.mem_append.mp h with h1 | h1
    · exact Or.inl h1
    · exact Or.inr (List.mem_singleton.mp h1)

theorem present_ainsert {α β : Type} [DecidableEq α]
    {m : List (α × β)} {k : α} (a : α) (b : β)
    (h : (alookup m k).isSome = true) :
    (alookup (ainsert m a b) k).isSome = true := by
  by_cases hk : k = a
  · subst hk
    rw [alookup_ainsert_self]
    rfl
  · rw [alookup_ainsert_other m a k b hk]
    exact h

theorem ainsert_map_absent {α β γ : Type} [DecidableEq α]
    {m : List (α × β)} {a : α} (b : β) (g : α × β → γ)
    (h : alookup m a = none) :
    (ainsert m a b).map g = m.map g ++ [g (a, b)] := by
  rw [ainsert, if_neg (by simp [h])]
  simp

theorem esstate_eta_nextId (st : ESState) :
    ({ st with nextId := st.nextId } : ESState) = st := rfl

theorem alookup_id_inj {M : List (Entry × Info)}
    (hid : (M.map (fun p => p.2.id)).Nodup) :
    ∀ e1 i1 e2 i2, alookup M e1 = some i1 → alookup M e2 = some i2 →
      i1.id = i2.id → e1 = e2 := by
  intro e1 i1 e2 i2 h1 h2 hii
  have hm1 := alookup_mem h1
  have hm2 := alookup_mem h2
  have heq : (e1, i1) = (e2, i2) :=
    List.inj_on_of_nodup_map hid hm1 hm2 hii
  exact congrArg Prod.fst heq

theorem filter_mem_self {α : Type} [DecidableEq α] (E : List α) :
    E.filter (fun e => !(memB e E)) = [] :=
  filter_not_mem_empty E E (fun x hx => (memB_iff x E).mpr hx)

theorem mem_of_filter_not_mem_nil {α : Type} [DecidableEq α]
    {l E : List α} (h : l.filter (fun e => !(memB e E)) = []) :
    ∀ x ∈ l, memB x E = true := by
  intro x hx
  have := List.filter_eq_nil_iff.mp h x hx
  simpa using this

/-! ## Materialisation well-formedness -/

theorem computeGo_wf (env : Env) (L : List Entry) :
    ∀ st ns st1, computeGo env L st = (ns, st1) →
      (st.map.map Prod.fst).Nodup →
      (st.map.map (fun p => p.2.id)).Nodup →
      (∀ p ∈ st.map, p.2.id < st.nextId) →
      st1.entries = st.entries ∧ st1.storagePresent = st.storagePresent ∧
      st1.storageNodes = st.storageNodes ∧ st1.mustNotify = st.mustNotify ∧
      st1.inited = st.inited ∧ st1.hasParent = st.hasParent ∧
      st.nextId ≤ st1.nextId ∧
      (st1.map.map Prod.fst).Nodup ∧
      (st1.map.map (fun p => p.2.id)).Nodup ∧
      (∀ p ∈ st1.map, p.2.id < st1.nextId) ∧
      (∀ k, (alookup st.map k).isSome = true → (alookup st1.map k).isSome = true) ∧
      (∀ e ∈ L, (alookup st1.map e).isSome = true) := by
  induction L with
  | nil =>
    intro st ns st1 h hk hi hf
    simp only [computeGo, Prod.mk.injEq] at h
    obtain ⟨-, rfl⟩ := h
    exact ⟨rfl, rfl, rfl, rfl, rfl, rfl, Nat.le_refl _, hk, hi, hf,
      fun _ hh => hh, fun e he => absurd he (List.not_mem_nil e)⟩
  | cons e rest ih =>
    intro st ns st1 h hk hi hf
    cases he : alookup st.map e with
    | some info =>
      cases hsm : alookup st.storageMap info.id with
      | some ns0 =>
        have hmap : ainsert st.map e info = st.map := by
          rw [ainsert, if_pos (by simp [he])]
          exact areplace_self hk he
        simp only [computeGo, findInfo, he, nodesForF, hsm, hmap] at h
        simp only [Prod.mk.injEq] at h
        obtain ⟨-, rfl⟩ := h
        obtain ⟨g1, g2, g3, g4, g5, g6, g7, g8, g9, g10, g11, g12⟩ :=
          ih st _ _ rfl hk hi hf
        refine ⟨g1, g2, g3, g4, g5, g6, g7, g8, g9, g10, g11, ?_⟩
        intro x hx
        rcases List.mem_cons.mp hx with rfl | hxr
        · exact g11 x (by simp [he])
        · exact g12 x hxr
      | none =>
        have hkeq : (ainsert st.map e
              { info with length := (Entry.nodesOf env e).length }).map Prod.fst
            = st.map.map Prod.fst := ainsert_keys_present _ (by simp [he])
        have hieq : (ainsert st.map e
              { info with length := (Entry.nodesOf env e).length }).map
                (fun p => p.2.id)
            = st.map.map (fun p => p.2.id) :=
          ainsert_map_of_lookup _ hk he rfl
        simp only [computeGo, findInfo, he, nodesForF, hsm] at h
        simp only [Prod.mk.injEq] at h
        obtain ⟨-, rfl⟩ := h
        obtain ⟨g1, g2, g3, g4, g5, g6, g7, g8, g9, g10, g11, g12⟩ :=
          ih { st with
                storageMap := ainsert st.storageMap info.id (Entry.nodesOf env e),
                map := ainsert st.map e
                  { info with length := (Entry.nodesOf env e).length } }
            _ _ rfl (by simpa only [hkeq] using hk) (by simpa only [hieq] using hi)
            (by
              intro p hp
              rcases mem_ainsert hp with h1 | h1
              · exact hf p h1
              · subst h1
                exact hf (e, info) (alookup_mem he))
        refine ⟨g1, g2, g3, g4, g5, g6, g7, g8, g9, g10, ?_, ?_⟩
        · intro k hk0
          exact g11 k (present_ainsert e _ hk0)
        · intro x hx
          rcases List.mem_cons.mp hx with rfl | hxr
          · refine g11 x ?_
            show (alookup (ainsert st.map x
              { info with length := (Entry.nodesOf env x).length }) x).isSome = true
            rw [alookup_ainsert_self]
            rfl
          · exact g12 x hxr
    | none =>
      have hnotmem : e ∉ st.map.map Prod.fst := (alookup_none_iff st.map e).mp he
      have hkeys1 : (ainsert st.map e (⟨st.nextId, 0⟩ : Info)).map Prod.fst
          = st.map.map Prod.fst ++ [e] := ainsert_keys_absent _ he
      have hnd1 : ((ainsert st.map e (⟨st.nextId, 0⟩ : Info)).map Prod.fst).Nodup := by
        rw [hkeys1, List.nodup_append_comm]
        exact List.nodup_cons.mpr ⟨hnotmem, hk⟩
      have hids1 : (ainsert st.map e (⟨st.nextId, 0⟩ : Info)).map (fun p => p.2.id)
          = st.map.map (fun p => p.2.id) ++ [st.nextId] := ainsert_map_absent _ _ he
      have hfreshid : st.nextId ∉ st.map.map (fun p => p.2.id) := by
        intro hmem
        obtain ⟨p, hp, hpe⟩ := List.mem_map.mp hmem
        exact absurd hpe (Nat.ne_of_lt (hf p hp))
      have hnd2 : ((ainsert st.map e (⟨st.nextId, 0⟩ : Info)).map
          (fun p => p.2.id)).Nodup := by
        rw [hids1, List.nodup_append_comm]
        exact List.nodup_cons.mpr ⟨hfreshid, hi⟩
      have hself1 : alookup (ainsert st.map e (⟨st.nextId, 0⟩ : Info)) e
          = some (⟨st.nextId, 0⟩ : Info) := alookup_ainsert_self _ _ _
      have hfresh1 : ∀ p ∈ ainsert st.map e (⟨st.nextId, 0⟩ : Info),
          p.2.id < st.nextId + 1 := by
        intro p hp
        rcases mem_ainsert hp with h1 | h1
        · exact Nat.lt_succ_of_lt (hf p h1)
        · subst h1
          exact Nat.lt_succ_self _
      cases hsm : alookup st.storageMap st.nextId with
      | some ns0 =>
        have hmap1 : ainsert (ainsert st.map e (⟨st.nextId, 0⟩ : Info)) e
              (⟨st.nextId, 0⟩ : Info)
            = ainsert st.map e (⟨st.nextId, 0⟩ : Info) := by
          rw [ainsert, if_pos (by simp [hself1])]
          exact areplace_self hnd1 hself1
        simp only [computeGo, findInfo, he, nodesForF, hsm, hmap1] at h
        simp only [Prod.mk.injEq] at h
        obtain ⟨-, rfl⟩ := h
        obtain ⟨g1, g2, g3, g4, g5, g6, g7, g8, g9, g10, g11, g12⟩ :=
          ih { st with
                map := ainsert st.map e (⟨st.nextId, 0⟩ : Info),
                nextId := st.nextId + 1 }
            _ _ rfl hnd1 hnd2 hfresh1
        refine ⟨g1, g2, g3, g4, g5, g6, Nat.le_trans (Nat.le_succ _) g7,
          g8, g9, g10, ?_, ?_⟩
        · intro k hk0
          exact g11 k (present_ainsert e _ hk0)
        · intro x hx
          rcases List.mem_cons.mp hx with rfl | hxr
          · exact g11 x (by rw [hself1]; rfl)
          · exact g12 x hxr
      | none =>
        have hkeq2 : (ainsert (ainsert st.map e (⟨st.nextId, 0⟩ : Info)) e
              (⟨st.nextId, (Entry.nodesOf env e).length⟩ : Info)).map Prod.fst
            = (ainsert st.map e (⟨st.nextId, 0⟩ : Info)).map Prod.fst :=
          ainsert_keys_present _ (by simp [hself1])
        have hieq2 : (ainsert (ainsert st.map e (⟨st.nextId, 0⟩ : Info)) e
              (⟨st.nextId, (Entry.nodesOf env e).length⟩ : Info)).map
                (fun p => p.2.id)
            = (ainsert st.map e (⟨st.nextId, 0⟩ : Info)).map (fun p => p.2.id) :=
          ainsert_map_of_lookup _ hnd1 hself1 rfl
        simp only [computeGo, findInfo, he, nodesForF, hsm] at h
        simp only [Prod.mk.injEq] at h
        obtain ⟨-, rfl⟩ := h
        obtain ⟨g1, g2, g3, g4, g5, g6, g7, g8, g9, g10, g11, g12⟩ :=
          ih { st with
                map := ainsert (ainsert st.map e (⟨st.nextId, 0⟩ : Info)) e
                  (⟨st.nextId, (Entry.nodesOf env e).length⟩ : Info),
                storageMap := ainsert st.storageMap st.nextId (Entry.nodesOf env e),
                nextId := st.nextId + 1 }
            _ _ rfl (by simpa only [hkeq2] using hnd1)
            (by simpa only [hieq2] using hnd2)
            (by
              intro p hp
              rcases mem_ainsert hp with h1 | h1
              · exact hfresh1 p h1
              · subst h1
                exact Nat.lt_succ_self _)
        refine ⟨g1, g2, g3, g4, g5, g6, Nat.le_trans (Nat.le_succ _) g7,
          g8, g9, g10, ?_, ?_⟩
        · intro k hk0
          exact g11 k (present_ainsert e _ (present_ainsert e _ hk0))
        · intro x hx
          rcases List.mem_cons.mp hx with rfl | hxr
          · refine g11 x ?_
            show (alookup (ainsert (ainsert st.map x (⟨st.nextId, 0⟩ : Info)) x
              (⟨st.nextId, (Entry.nodesOf env x).length⟩ : Info)) x).isSome = true
            rw [alookup_ainsert_self]
            rfl
          · exact g12 x hxr

theorem storageGetNodes_wf (env : Env) (st : ESState)
    (hk : (st.map.map Prod.fst).Nodup)
    (hi : (st.map.map (fun p => p.2.id)).Nodup)
    (hf : ∀ p ∈ st.map, p.2.id < st.nextId) :
    ∀ ns st1, storageGetNodes env st = (ns, st1) →
      st1.entries = st.entries ∧ st1.storagePresent = st.storagePresent ∧
      st1.storageNodes = some ns ∧ st1.mustNotify = st.mustNotify ∧
      st1.inited = st.inited ∧ st1.hasParent = st.hasParent ∧
      st.nextId ≤ st1.nextId ∧
      (st1.map.map Prod.fst).Nodup ∧
      (st1.map.map (fun p => p.2.id)).Nodup ∧
      (∀ p ∈ st1.map, p.2.id < st1.nextId) ∧
      (∀ k, (alookup st.map k).isSome = true → (alookup st1.map k).isSome = true) := by
  intro ns st1 h
  simp only [storageGetNodes] at h
  split at h
  · rename_i ns0 hsome
    simp only [Prod.mk.injEq] at h
    obtain ⟨rfl, rfl⟩ := h
    exact ⟨rfl, rfl, hsome, rfl, rfl, rfl, Nat.le_refl _, hk, hi, hf, fun _ hh => hh⟩
  · rename_i hnone
    simp only [Prod.mk.injEq] at h
    obtain ⟨rfl, rfl⟩ := h
    obtain ⟨g1, g2, g3, g4, g5, g6, g7, g8, g9, g10, g11, g12⟩ :=
      computeGo_wf env st.entries st _ _ rfl hk hi hf
    exact ⟨g1, g2, rfl, g4, g5, g6, g7, g8, g9, g10, g11⟩

/-! ## Reorder-phase lemmas -/

theorem offsetsGo_total (M : List (Entry × Info)) :
    ∀ L pos acc, (∀ e ∈ L, (alookup M e).isSome = true) →
      ∃ offs, offsetsGo M L pos acc = some offs := by
  intro L
  induction L with
  | nil => intro pos acc _; exact ⟨acc, rfl⟩
  | cons e rest ih =>
    intro pos acc h
    obtain ⟨info, he⟩ := Option.isSome_iff_exists.mp
      (h e (List.mem_cons_self e rest))
    obtain ⟨offs, ho⟩ := ih (pos + info.length) (ainsert acc info.id pos)
      (fun x hx => h x (List.mem_cons_of_mem e hx))
    refine ⟨offs, ?_⟩
    simp only [offsetsGo, he]
    exact ho

theorem offsetsGo_preserve (M : List (Entry × Info)) :
    ∀ L pos acc offs, offsetsGo M L pos acc = some offs →
      ∀ k v, alookup acc k = some v →
        (∀ x ∈ L, ∀ i, alookup M x = some i → i.id ≠ k) →
        alookup offs k = some v := by
  intro L
  induction L with
  | nil =>
    intro pos acc offs h k v hv _
    simp only [offsetsGo, Option.some.injEq] at h
    subst h
    exact hv
  | cons e rest ih =>
    intro pos acc offs h k v hv hid
    cases he : alookup M e with
    | none =>
      simp only [offsetsGo, he] at h
      cases h
    | some info =>
      simp only [offsetsGo, he] at h
      have hne : k ≠ info.id :=
        fun hh => hid e (List.mem_cons_self e rest) info he hh.symm
      refine ih _ _ _ h k v ?_ (fun x hx => hid x (List.mem_cons_of_mem e hx))
      rw [alookup_ainsert_other acc info.id k pos hne]
      exact hv

theorem offsetsGo_aligned {M : List (Entry × Info)}
    (hinj : ∀ e1 i1 e2 i2, alookup M e1 = some i1 → alookup M e2 = some i2 →
      i1.id = i2.id → e1 = e2) :
    ∀ L pos acc offs, offsetsGo M L pos acc = some offs → L.Nodup →
      OffsAligned M offs L pos := by
  intro L
  induction L with
  | nil => intro pos acc offs _ _; exact OffsAligned.nil pos
  | cons e rest ih =>
    intro pos acc offs h hnd
    cases he : alookup M e with
    | none =>
      simp only [offsetsGo, he] at h
      cases h
    | some info =>
      simp only [offsetsGo, he] at h
      have hnd2 := List.nodup_cons.mp hnd
      refine OffsAligned.cons e rest pos info he ?_ (ih _ _ _ h hnd2.2)
      refine offsetsGo_preserve M rest _ _ _ h info.id pos
        (alookup_ainsert_self acc info.id pos) ?_
      intro x hx i hxi hii
      have hxe := hinj x i e info hxi he hii
      subst hxe
      exact absurd hx hnd2.1

theorem orderGo_aligned (M : List (Entry × Info)) (offs : List (Nat × Nat)) :
    ∀ L pos, OffsAligned M offs L pos → ∀ acc : OrderAcc, acc.currentPos = pos →
      ∃ cp, orderGo M offs L acc
        = some ⟨acc.toAdd, acc.perm, cp, acc.permSize,
                acc.reordered ++ L, acc.nextId⟩ := by
  intro L
  induction L with
  | nil =>
    intro pos _ acc _
    refine ⟨acc.currentPos, ?_⟩
    rw [List.append_nil]
    rfl
  | cons e rest ih =>
    intro pos ha acc hcp
    obtain ⟨ta, pm, cpos, ps, ro, ni⟩ := acc
    simp only at hcp
    subst hcp
    cases ha with
    | cons _ _ _ info hm ho hr =>
      obtain ⟨cp, hrec⟩ :=
        ih (cpos + info.length) hr ⟨ta, pm, cpos + info.length, ps, ro ++ [e], ni⟩ rfl
      refine ⟨cp, ?_⟩
      simp only [orderGo, hm, ho]
      rw [if_neg (show ¬(cpos ≠ cpos) from fun hh => hh rfl)]
      simp only [List.append_assoc, List.singleton_append]
      simpa only [List.append_assoc, List.singleton_append] using hrec

theorem orderGo_spec (M : List (Entry × Info)) (offs : List (Nat × Nat)) :
    ∀ L (acc acc1 : OrderAcc), orderGo M offs L acc = some acc1 →
      ∃ fresh : List (Entry × Info),
        acc1.toAdd = acc.toAdd ++ fresh ∧
        acc1.nextId = acc.nextId + fresh.length ∧
        acc1.reordered = acc.reordered
          ++ L.filter (fun e => (alookup M e).isSome) ∧
        fresh.map Prod.fst = L.filter (fun e => !(alookup M e).isSome) ∧
        fresh.map (fun p => p.2.id) = List.range' acc.nextId fresh.length := by
  intro L
  induction L with
  | nil =>
    intro acc acc1 h
    simp only [orderGo, Option.some.injEq] at h
    subst h
    exact ⟨[], by simp⟩
  | cons e rest ih =>
    intro acc acc1 h
    obtain ⟨ta, pm, cpos, ps, ro, ni⟩ := acc
    cases he : alookup M e with
    | none =>
      simp only [orderGo, he] at h
      obtain ⟨fresh, h1, h2, h3, h4, h5⟩ := ih _ _ h
      refine ⟨(e, ⟨ni, 0⟩) :: fresh, ?_, ?_, ?_, ?_, ?_⟩
      · rw [h1]
        simp only [List.append_assoc, List.singleton_append]
      · simp only at h2
        simp only [List.length_cons, h2]
        omega
      · rw [h3]
        rw [List.filter_cons_of_neg (by simp [he])]
      · rw [List.filter_cons_of_pos (by simp [he])]
        simp only [List.map_cons, h4]
      · simp only [List.map_cons, List.length_cons, h5]
        rw [List.range'_succ]
    | some info =>
      cases hprev : alookup offs info.id with
      | none =>
        simp only [orderGo, he, hprev] at h
        cases h
      | some prev =>
        simp only [orderGo, he, hprev] at h
        split at h
        · obtain ⟨fresh, h1, h2, h3, h4, h5⟩ := ih _ _ h
          refine ⟨fresh, h1, h2, ?_, ?_, h5⟩
          · rw [h3]
            rw [List.filter_cons_of_pos (by simp [he])]
            simp only [List.append_assoc, List.singleton_append]
          · rw [h4]
            rw [List.filter_cons_of_neg (by simp [he])]
        · obtain ⟨fresh, h1, h2, h3, h4, h5⟩ := ih _ _ h
          refine ⟨fresh, h1, h2, ?_, ?_, h5⟩
          · rw [h3]
            rw [List.filter_cons_of_pos (by simp [he])]
            simp only [List.append_assoc, List.singleton_append]
          · rw [h4]
            rw [List.filter_cons_of_neg (by simp [he])]

/-! ## Addition-phase lemmas -/

theorem addGo_wf (env : Env) :
    ∀ (tas : List (Entry × Info)) (st : ESState) (acc : List Node) st1 nodes,
      addGo env tas st acc = (st1, nodes) →
      (∀ p ∈ tas, p.1 ∉ st.map.map Prod.fst) →
      (tas.map Prod.fst).Nodup →
      st1.map.map Prod.fst = st.map.map Prod.fst ++ tas.map Prod.fst ∧
      st1.map.map (fun p => p.2.id)
        = st.map.map (fun p => p.2.id) ++ tas.map (fun p => p.2.id) ∧
      st1.entries = st.entries ∧ st1.nextId = st.nextId ∧
      st1.storagePresent = st.storagePresent ∧
      st1.storageNodes = st.storageNodes ∧ st1.mustNotify = st.mustNotify ∧
      st1.inited = st.inited ∧ st1.hasParent = st.hasParent := by
  intro tas
  induction tas with
  | nil =>
    intro st acc st1 nodes h _ _
    simp only [addGo, Prod.mk.injEq] at h
    obtain ⟨rfl, -⟩ := h
    simp
  | cons p rest ih =>
    obtain ⟨e, info⟩ := p
    intro st acc st1 nodes h hout hnd
    have hnotmem : e ∉ st.map.map Prod.fst :=
      hout (e, info) (List.mem_cons_self _ _)
    have he : alookup st.map e = none := (alookup_none_iff st.map e).mpr hnotmem
    simp only [List.map_cons, List.nodup_cons] at hnd
    have houtrest : ∀ b : Info, ∀ q ∈ rest,
        q.1 ∉ (ainsert st.map e b).map Prod.fst := by
      intro b q hq
      rw [ainsert_keys_absent b he]
      intro hmem
      rcases List.mem_append.mp hmem with h1 | h1
      · exact hout q (List.mem_cons_of_mem _ hq) h1
      · have hq1 : q.1 = e := List.mem_singleton.mp h1
        exact hnd.1 (hq1 ▸ List.mem_map_of_mem Prod.fst hq)
    cases hsm : alookup st.storageMap info.id with
    | some ns0 =>
      simp only [addGo, nodesForF, hsm] at h
      obtain ⟨g1, g2, g3, g4, g5, g6, g7, g8, g9⟩ :=
        ih { st with map := ainsert st.map e info } _ _ _ h
          (houtrest info) hnd.2
      refine ⟨?_, ?_, g3, g4, g5, g6, g7, g8, g9⟩
      · rw [g1]
        show (ainsert st.map e info).map Prod.fst ++ _ = _
        rw [ainsert_keys_absent info he]
        simp [List.append_assoc]
      · rw [g2]
        show (ainsert st.map e info).map (fun p => p.2.id) ++ _ = _
        rw [ainsert_map_absent info (fun p => p.2.id) he]
        simp [List.append_assoc]
    | none =>
      simp only [addGo, nodesForF, hsm] at h
      obtain ⟨g1, g2, g3, g4, g5, g6, g7, g8, g9⟩ :=
        ih { st with
              storageMap := ainsert st.storageMap info.id (Entry.nodesOf env e),
              map := ainsert st.map e
                { info with length := (Entry.nodesOf env e).length } } _ _ _ h
          (houtrest { info with length := (Entry.nodesOf env e).length }) hnd.2
      refine ⟨?_, ?_, g3, g4, g5, g6, g7, g8, g9⟩
      · rw [g1]
        show (ainsert st.map e
          { info with length := (Entry.nodesOf env e).length }).map Prod.fst ++ _ = _
        rw [ainsert_keys_absent _ he]
        simp [List.append_assoc]
      · rw [g2]
        show (ainsert st.map e
          { info with length := (Entry.nodesOf env e).length }).map
            (fun p => p.2.id) ++ _ = _
        rw [ainsert_map_absent _ (fun p => p.2.id) he]
        simp [List.append_assoc]

theorem updateAdd_spec {env : Env} {st : ESState} {tas : List (Entry × Info)}
    {E : List Entry} {st1 : ESState} {evs : List Event}
    (h : updateAdd env st tas E = (st1, evs))
    (hout : ∀ p ∈ tas, p.1 ∉ st.map.map Prod.fst)
    (hnd : (tas.map Prod.fst).Nodup) :
    st1.map.map Prod.fst = st.map.map Prod.fst ++ tas.map Prod.fst ∧
    st1.map.map (fun p => p.2.id)
      = st.map.map (fun p => p.2.id) ++ tas.map (fun p => p.2.id) ∧
    st1.entries = E ∧ st1.nextId = st.nextId ∧
    st1.storagePresent = st.storagePresent ∧
    (st1.storageNodes = st.storageNodes ∨ st1.storageNodes = none) ∧
    st1.mustNotify = st.mustNotify ∧ st1.inited = st.inited ∧
    st1.hasParent = st.hasParent := by
  obtain ⟨g1, g2, g3, g4, g5, g6, g7, g8, g9⟩ :=
    addGo_wf env tas st [] _ _ rfl hout hnd
  simp only [updateAdd] at h
  split at h
  · simp only [Prod.mk.injEq] at h
    obtain ⟨rfl, -⟩ := h
    exact ⟨g1, g2, rfl, g4, g5, Or.inl g6, g7, g8, g9⟩
  · simp only [Prod.mk.injEq] at h
    obtain ⟨rfl, -⟩ := h
    simp only [clearNodes]
    split
    · exact ⟨g1, g2, rfl, g4, g5, Or.inr rfl, g7, g8, g9⟩
    · exact ⟨g1, g2, rfl, g4, g5, Or.inl g6, g7, g8, g9⟩

/-! ## updateOrder characterisation -/

theorem updateOrder_spec {stM : ESState} {cur2 : List Node} {E : List Entry}
    {tA : List (Entry × Info)} {stO : ESState} {evs2 : List Event}
    (h : updateOrder stM cur2 E = some (tA, stO, evs2)) :
    ∃ offs acc,
      offsetsGo stM.map stM.entries 0 [] = some offs ∧
      orderGo stM.map offs E
        ⟨[], List.replicate cur2.length 0, 0, 0, [], stM.nextId⟩ = some acc ∧
      tA = acc.toAdd ∧
      stO.map = stM.map ∧ stO.nextId = acc.nextId ∧
      stO.storagePresent = stM.storagePresent ∧
      stO.mustNotify = stM.mustNotify ∧ stO.inited = stM.inited ∧
      (stO.entries = acc.reordered ∨
        (stO = { stM with nextId := acc.nextId } ∧ evs2 = [])) := by
  simp only [updateOrder] at h
  cases hoff : offsetsGo stM.map stM.entries 0 [] with
  | none =>
    simp only [hoff] at h
    cases h
  | some offs =>
    simp only [hoff] at h
    cases hord : orderGo stM.map offs E
        ⟨[], List.replicate cur2.length 0, 0, 0, [], stM.nextId⟩ with
    | none =>
      simp only [hord] at h
      cases h
    | some acc =>
      simp only [hord] at h
      refine ⟨offs, acc, rfl, hord, ?_⟩
      split at h
      · simp only [Option.some.injEq, Prod.mk.injEq] at h
        obtain ⟨h1, h2, h3⟩ := h
        rw [← h2]
        simp only [clearNodes]
        split
        · exact ⟨h1.symm, rfl, rfl, rfl, rfl, rfl, Or.inl rfl⟩
        · exact ⟨h1.symm, rfl, rfl, rfl, rfl, rfl, Or.inl rfl⟩
      · simp only [Option.some.injEq, Prod.mk.injEq] at h
        obtain ⟨h1, h2, h3⟩ := h
        rw [← h2]
        exact ⟨h1.symm, rfl, rfl, rfl, rfl, rfl,
          Or.inr ⟨rfl, h3.symm⟩⟩

/-! ## Second-call no-op lemmas -/

theorem storageGetNodes_cached {env : Env} {st : ESState} {ns : List Node}
    (h : st.storageNodes = some ns) : storageGetNodes env st = (ns, st) := by
  simp only [storageGetNodes, h]

theorem diffPath_aligned_noop (env : Env) (E : List Entry) (hE : E.Nodup)
    (st1 : ESState) (hent : st1.entries = E)
    (hk : (st1.map.map Prod.fst).Nodup)
    (hi : (st1.map.map (fun p => p.2.id)).Nodup)
    (hf : ∀ p ∈ st1.map, p.2.id < st1.nextId)
    (hpres : ∀ e ∈ E, (alookup st1.map e).isSome = true)
    (hsp : st1.storagePresent = true) :
    ∃ st2, diffPath env (storageGetNodes env st1).2 (storageGetNodes env st1).1 E
        = some (st2, []) ∧
      (getNodesES env st2).1 = (getNodesES env st1).1 := by
  cases hsg : storageGetNodes env st1 with
  | mk c1 s1 =>
    obtain ⟨w1, w2, w3, w4, w5, w6, w7, w8, w9, w10, w11⟩ :=
      storageGetNodes_wf env st1 hk hi hf c1 s1 hsg
    have hes1 : s1.entries = E := by rw [w1, hent]
    have hpres1 : ∀ e ∈ E, (alookup s1.map e).isSome = true :=
      fun e he => w11 e (hpres e he)
    obtain ⟨offs, hoff⟩ := offsetsGo_total s1.map E 0 [] hpres1
    obtain ⟨cp, hord⟩ := orderGo_aligned s1.map offs E 0
      (offsetsGo_aligned (alookup_id_inj w9) E 0 [] offs hoff hE)
      ⟨[], List.replicate c1.length 0, 0, 0, [], s1.nextId⟩ rfl
    have hoff1 : offsetsGo s1.map s1.entries 0 [] = some offs := by
      rw [hes1]
      exact hoff
    have hupd : updateOrder s1 c1 E = some ([], s1, []) := by
      simp only [updateOrder, hoff1, hord, List.nil_append]
      rw [if_neg (Nat.lt_irrefl 0)]
    have hfilt : s1.entries.filter (fun e => !(memB e E)) = [] := by
      rw [hes1]
      exact filter_mem_self E
    have hsg1 : storageGetNodes env s1 = (c1, s1) := storageGetNodes_cached w3
    refine ⟨s1, ?_, ?_⟩
    · show diffPath env s1 c1 E = some (s1, [])
      simp only [diffPath, hfilt, hsg1, hupd, if_true, ite_true, eq_self_iff_true,
        List.append_nil, List.nil_append]
    · have hg1 : getNodesES env st1 = (c1, s1) := by
        simp only [getNodesES, hsp, if_true]
        exact hsg
      have hsp1 : s1.storagePresent = true := by rw [w2, hsp]
      have hg2 : getNodesES env s1 = (c1, s1) := by
        simp only [getNodesES, hsp1, if_true]
        exact hsg1
      rw [hg1, hg2]

theorem diffPath_add_tail (env : Env) (E : List Entry) (hE : E.Nodup)
    (stM : ESState) (fresh : List (Entry × Info)) (stO st1 : ESState)
    (evs3 : List Event)
    (hkM : (stM.map.map Prod.fst).Nodup)
    (hiM : (stM.map.map (fun p => p.2.id)).Nodup)
    (hfM : ∀ p ∈ stM.map, p.2.id < stM.nextId)
    (hOmap : stO.map = stM.map) (hOnext : stO.nextId = stM.nextId + fresh.length)
    (hOsp : stO.storagePresent = true) (hOmn : stO.mustNotify = false)
    (hOin : stO.inited = true)
    (hfk : fresh.map Prod.fst = E.filter (fun e => !(alookup stM.map e).isSome))
    (hfi : fresh.map (fun p => p.2.id) = List.range' stM.nextId fresh.length)
    (hua : updateAdd env stO fresh E = (st1, evs3)) :
    st1.storagePresent = true ∧ st1.mustNotify = false ∧ st1.inited = true ∧
    ∃ st2, diffPath env (storageGetNodes env st1).2 (storageGetNodes env st1).1 E
        = some (st2, []) ∧
      (getNodesES env st2).1 = (getNodesES env st1).1 := by
  have hout : ∀ p ∈ fresh, p.1 ∉ stO.map.map Prod.fst := by
    intro p hp
    have hmem : p.1 ∈ E.filter (fun e => !(alookup stM.map e).isSome) := by
      rw [← hfk]
      exact List.mem_map_of_mem Prod.fst hp
    have hmiss := (List.mem_filter.mp hmem).2
    rw [hOmap]
    intro hkm
    have hsome := (alookup_isSome_iff stM.map p.1).mpr hkm
    simp [hsome] at hmiss
  have hndk : (fresh.map Prod.fst).Nodup := by
    rw [hfk]
    exact hE.filter _
  obtain ⟨a1, a2, a3, a4, a5, a6, a7, a8, a9⟩ := updateAdd_spec hua hout hndk
  have hkeys : st1.map.map Prod.fst
      = stM.map.map Prod.fst ++ E.filter (fun e => !(alookup stM.map e).isSome) := by
    rw [a1, hOmap, hfk]
  have hids : st1.map.map (fun p => p.2.id)
      = stM.map.map (fun p => p.2.id) ++ List.range' stM.nextId fresh.length := by
    rw [a2, hOmap, hfi]
  have hk1 : (st1.map.map Prod.fst).Nodup := by
    rw [hkeys, List.nodup_append]
    refine ⟨hkM, hE.filter _, ?_⟩
    intro x hx hx2
    have hmiss := (List.mem_filter.mp hx2).2
    have hsome := (alookup_isSome_iff stM.map x).mpr hx
    simp [hsome] at hmiss
  have hi1 : (st1.map.map (fun p => p.2.id)).Nodup := by
    rw [hids, List.nodup_append]
    refine ⟨hiM, ?_, ?_⟩
    · exact List.nodup_range' _ _
    intro x hx hx2
    obtain ⟨p, hp, hpe⟩ := List.mem_map.mp hx
    have hlt := hfM p hp
    have hge := (List.mem_range'_1.mp hx2).1
    omega
  have hf1 : ∀ p ∈ st1.map, p.2.id < st1.nextId := by
    intro p hp
    have hmem : p.2.id ∈ st1.map.map (fun p => p.2.id) :=
      List.mem_map_of_mem _ hp
    rw [hids] at hmem
    rw [a4, hOnext]
    rcases List.mem_append.mp hmem with h1 | h1
    · obtain ⟨q, hq, hqe⟩ := List.mem_map.mp h1
      have := hfM q hq
      omega
    · have := (List.mem_range'_1.mp h1).2
      omega
  have hpres1 : ∀ e ∈ E, (alookup st1.map e).isSome = true := by
    intro e he
    rw [alookup_isSome_iff, hkeys]
    cases hcase : (alookup stM.map e).isSome with
    | true =>
      exact List.mem_append_left _ ((alookup_isSome_iff stM.map e).mp hcase)
    | false =>
      exact List.mem_append_right _
        (List.mem_filter.mpr ⟨he, by simp [hcase]⟩)
  have hsp1 : st1.storagePresent = true := by rw [a5, hOsp]
  have hmn1 : st1.mustNotify = false := by rw [a7, hOmn]
  have hin1 : st1.inited = true := by rw [a8, hOin]
  exact ⟨hsp1, hmn1, hin1,
    diffPath_aligned_noop env E hE st1 a3 hk1 hi1 hf1 hpres1 hsp1⟩

theorem diffPath_idem (env : Env) (E : List Entry) (hE : E.Nodup)
    (stD : ESState) (cur : List Node) (st1 : ESState) (evs : List Event)
    (hk0 : (stD.map.map Prod.fst).Nodup)
    (hi0 : (stD.map.map (fun p => p.2.id)).Nodup)
    (hf0 : ∀ p ∈ stD.map, p.2.id < stD.nextId)
    (hsp0 : stD.storagePresent = true)
    (hmn0 : stD.mustNotify = false) (hin0 : stD.inited = true)
    (h : diffPath env stD cur E = some (st1, evs)) :
    st1.storagePresent = true ∧ st1.mustNotify = false ∧ st1.inited = true ∧
    ∃ st2, diffPath env (storageGetNodes env st1).2 (storageGetNodes env st1).1 E
        = some (st2, []) ∧
      (getNodesES env st2).1 = (getNodesES env st1).1 := by
  simp only [diffPath] at h
  split at h
  · cases h
  · rename_i stR evs1 heq
    have hstR : (stR.map.map Prod.fst).Nodup ∧
        (stR.map.map (fun p => p.2.id)).Nodup ∧
        (∀ p ∈ stR.map, p.2.id < stR.nextId) ∧
        stR.storagePresent = true ∧ stR.mustNotify = false ∧
        stR.inited = true ∧
        stR.entries.filter (fun e => !(memB e E)) = [] := by
      by_cases hT : stD.entries.filter (fun e => !(memB e E)) = []
      · rw [if_pos hT] at heq
        simp only [Option.some.injEq, Prod.mk.injEq] at heq
        obtain ⟨rfl, -⟩ := heq
        exact ⟨hk0, hi0, hf0, hsp0, hmn0, hin0, hT⟩
      · rw [if_neg hT] at heq
        obtain ⟨r1, r2, r3, r4, r5, r6, r7, r8, r9⟩ := updateRemove_spec heq
        refine ⟨?_, ?_, ?_, ?_, ?_, ?_, ?_⟩
        · exact hk0.sublist (r3.map Prod.fst)
        · exact hi0.sublist (r3.map (fun p => p.2.id))
        · intro p hp
          rw [r6]
          exact hf0 p (r3.subset hp)
        · rw [r4, hsp0]
        · rw [r7, hmn0]
        · rw [r8, hin0]
        · rw [r1]
          exact filter_not_mem_empty _ E (eraseList_of_filter_mem stD.entries E)
    obtain ⟨hkR, hiR, hfR, hspR, hmnR, hinR, hRfilt⟩ := hstR
    clear heq
    cases hsg : storageGetNodes env stR with
    | mk cur2 stM =>
      rw [hsg] at h
      obtain ⟨w1, w2, w3, w4, w5, w6, w7, w8, w9, w10, w11⟩ :=
        storageGetNodes_wf env stR hkR hiR hfR cur2 stM hsg
      split at h
      · cases h
      · rename_i tA stO evs2 huo
        obtain ⟨offs, acc, hoff, hord, htAeq, hOmap, hOnext, hOsp, hOmn, hOin,
          hObranch⟩ := updateOrder_spec huo
        obtain ⟨fresh, hfa, hfn, hfr, hfk, hfi⟩ :=
          orderGo_spec stM.map offs E _ acc hord
        split at h
        · rename_i htA
          simp only [Option.some.injEq, Prod.mk.injEq] at h
          obtain ⟨rfl, -⟩ := h
          have hfreshnil : fresh = [] := by
            have haf : acc.toAdd = fresh := by simpa using hfa
            rw [← haf, ← htAeq]
            exact htA
          subst hfreshnil
          have hallmiss : E.filter (fun e => !(alookup stM.map e).isSome) = [] := by
            rw [← hfk]
            rfl
          have hall : ∀ e ∈ E, (alookup stM.map e).isSome = true := by
            intro e he
            have h2 := List.filter_eq_nil_iff.mp hallmiss e he
            rw [Option.isSome_iff_ne_none]
            simpa using h2
          have haccnext : acc.nextId = stM.nextId := by simpa using hfn
          rcases hObranch with hOent | ⟨hOeq, hevs2⟩
          · have hfiltE : E.filter (fun e => (alookup stM.map e).isSome) = E :=
              List.filter_eq_self.mpr (fun a ha => hall a ha)
            have hentO : stO.entries = E := by
              rw [hOent, hfr]
              simpa using hfiltE
            have hspO : stO.storagePresent = true := by rw [hOsp, w2, hspR]
            have hmnO : stO.mustNotify = false := by rw [hOmn, w4, hmnR]
            have hinO : stO.inited = true := by rw [hOin, w5, hinR]
            refine ⟨hspO, hmnO, hinO, ?_⟩
            refine diffPath_aligned_noop env E hE stO hentO ?_ ?_ ?_ ?_ hspO
            · rw [hOmap]
              exact w8
            · rw [hOmap]
              exact w9
            · intro p hp
              rw [hOmap] at hp
              rw [hOnext, haccnext]
              exact w10 p hp
            · intro e he
              rw [hOmap]
              exact hall e he
          · have hstOM : stO = stM := by
              rw [hOeq, haccnext]
            have hspO : stO.storagePresent = true := by rw [hstOM, w2, hspR]
            have hmnO : stO.mustNotify = false := by rw [hstOM, w4, hmnR]
            have hinO : stO.inited = true := by rw [hstOM, w5, hinR]
            refine ⟨hspO, hmnO, hinO, ⟨stO, ?_, rfl⟩⟩
            have hsnO : stO.storageNodes = some cur2 := by
              rw [hstOM]
              exact w3
            have hsgO : storageGetNodes env stO = (cur2, stO) :=
              storageGetNodes_cached hsnO
            rw [hsgO]
            show diffPath env stO cur2 E = some (stO, [])
            have hfiltO : stO.entries.filter (fun e => !(memB e E)) = [] := by
              rw [hstOM, w1]
              exact hRfilt
            have huoO : updateOrder stO cur2 E = some ([], stO, []) := by
              rw [hstOM, huo, htA, hevs2, hstOM]
            simp only [diffPath, hfiltO, hsgO, huoO, if_true, ite_true,
              eq_self_iff_true, List.append_nil, List.nil_append]
        · rename_i htA
          simp only [Option.some.injEq, Prod.mk.injEq] at h
          obtain ⟨rfl, -⟩ := h
          have htAfresh : tA = fresh := by
            rw [htAeq, hfa]
            simp
          subst htAfresh
          obtain ⟨b1, b2, b3, b4⟩ :=
            diffPath_add_tail env E hE stM tA stO _ _ w8 w9 w10
              hOmap (by rw [hOnext, hfn]) (by rw [hOsp, w2, hspR])
              (by rw [hOmn, w4, hmnR]) (by rw [hOin, w5, hinR])
              hfk hfi rfl
          exact ⟨b1, b2, b3, b4⟩

/-! ## Consistency-invariant lemmas -/

theorem diffPath_consistency (env : Env) (E : List Entry) (hE : E.Nodup)
    (stD : ESState) (cur : List Node) (st1 : ESState) (evs : List Event)
    (hk0 : (stD.map.map Prod.fst).Nodup)
    (hi0 : (stD.map.map (fun p => p.2.id)).Nodup)
    (hf0 : ∀ p ∈ stD.map, p.2.id < stD.nextId)
    (hperm : (stD.map.map Prod.fst).Perm stD.entries)
    (h : diffPath env stD cur E = some (st1, evs)) :
    (st1.map.map Prod.fst).Perm st1.entries := by
  simp only [diffPath] at h
  split at h
  · cases h
  · rename_i stR evs1 heq
    have hstR : (stR.map.map Prod.fst).Nodup ∧
        (stR.map.map (fun p => p.2.id)).Nodup ∧
        (∀ p ∈ stR.map, p.2.id < stR.nextId) ∧
        (stR.map.map Prod.fst).Perm stR.entries ∧
        stR.entries.filter (fun e => !(memB e E)) = [] := by
      by_cases hT : stD.entries.filter (fun e => !(memB e E)) = []
      · rw [if_pos hT] at heq
        simp only [Option.some.injEq, Prod.mk.injEq] at heq
        obtain ⟨rfl, -⟩ := heq
        exact ⟨hk0, hi0, hf0, hperm, hT⟩
      · rw [if_neg hT] at heq
        obtain ⟨r1, r2, r3, r4, r5, r6, r7, r8, r9⟩ := updateRemove_spec heq
        refine ⟨hk0.sublist (r3.map Prod.fst),
          hi0.sublist (r3.map (fun p => p.2.id)), ?_, ?_, ?_⟩
        · intro p hp
          rw [r6]
          exact hf0 p (r3.subset hp)
        · rw [r1, r2]
          exact perm_eraseList _ hperm
        · rw [r1]
          exact filter_not_mem_empty _ E (eraseList_of_filter_mem stD.entries E)
    obtain ⟨hkR, hiR, hfR, hpermR, hRfilt⟩ := hstR
    clear heq
    have hallR : ∀ e ∈ stR.entries, (alookup stR.map e).isSome = true := by
      intro e he
      rw [alookup_isSome_iff]
      exact hpermR.mem_iff.mpr he
    cases hsg : storageGetNodes env stR with
    | mk cur2 stM =>
      rw [hsg] at h
      obtain ⟨p1, p2, p3, p4, p5, p6, p7, p8, p9⟩ :=
        storageGetNodes_preserves env stR hkR hallR cur2 stM hsg
      have hpermM : (stM.map.map Prod.fst).Perm stM.entries := by
        rw [p1, p2]
        exact hpermR
      have hkM : (stM.map.map Prod.fst).Nodup := by
        rw [p2]
        exact hkR
      have hMfilt : stM.entries.filter (fun e => !(memB e E)) = [] := by
        rw [p1]
        exact hRfilt
      have hRsub : ∀ x ∈ stM.entries, x ∈ E := by
        intro x hx
        exact (memB_iff x E).mp (mem_of_filter_not_mem_nil hMfilt x hx)
      have hMnodup : stM.entries.Nodup := hpermM.nodup_iff.mp hkM
      split at h
      · cases h
      · rename_i tA stO evs2 huo
        obtain ⟨offs, acc, hoff, hord, htAeq, hOmap, hOnext, hOsp, hOmn, hOin,
          hObranch⟩ := updateOrder_spec huo
        obtain ⟨fresh, hfa, hfn, hfr, hfk, hfi⟩ :=
          orderGo_spec stM.map offs E _ acc hord
        have hfoundR : ∀ x, x ∈ E.filter (fun e => (alookup stM.map e).isSome)
            ↔ x ∈ stM.entries := by
          intro x
          constructor
          · intro hx
            obtain ⟨hxE, hxs⟩ := List.mem_filter.mp hx
            exact hpermM.mem_iff.mp ((alookup_isSome_iff _ _).mp hxs)
          · intro hx
            refine List.mem_filter.mpr ⟨hRsub x hx, ?_⟩
            rw [alookup_isSome_iff]
            exact hpermM.mem_iff.mpr hx
        have hpermRE : (E.filter (fun e => (alookup stM.map e).isSome)).Perm
            stM.entries :=
          (List.perm_ext_iff_of_nodup (hE.filter _) hMnodup).mpr hfoundR
        split at h
        · rename_i htA
          simp only [Option.some.injEq, Prod.mk.injEq] at h
          obtain ⟨rfl, -⟩ := h
          have hfreshnil : fresh = [] := by
            have haf : acc.toAdd = fresh := by simpa using hfa
            rw [← haf, ← htAeq]
            exact htA
          subst hfreshnil
          have hallmiss : E.filter (fun e => !(alookup stM.map e).isSome) = [] := by
            rw [← hfk]
            rfl
          have hall : ∀ e ∈ E, (alookup stM.map e).isSome = true := by
            intro e he
            have h2 := List.filter_eq_nil_iff.mp hallmiss e he
            rw [Option.isSome_iff_ne_none]
            simpa using h2
          have hfiltE : E.filter (fun e => (alookup stM.map e).isSome) = E :=
            List.filter_eq_self.mpr (fun a ha => hall a ha)
          rcases hObranch with hOent | ⟨hOeq, hevs2⟩
          · have hentO : stO.entries = E := by
              rw [hOent, hfr]
              simpa using hfiltE
            rw [hentO, hOmap]
            have hEperm := hpermRE
            rw [hfiltE] at hEperm
            exact hpermM.trans hEperm.symm
          · rw [hOeq]
            simpa using hpermM
        · rename_i htA
          simp only [Option.some.injEq, Prod.mk.injEq] at h
          obtain ⟨rfl, -⟩ := h
          have htAfresh : tA = fresh := by
            rw [htAeq, hfa]
            simp
          subst htAfresh
          have hout : ∀ p ∈ tA, p.1 ∉ stO.map.map Prod.fst := by
            intro p hp
            have hmem : p.1 ∈ E.filter (fun e => !(alookup stM.map e).isSome) := by
              rw [← hfk]
              exact List.mem_map_of_mem Prod.fst hp
            have hmiss := (List.mem_filter.mp hmem).2
            rw [hOmap]
            intro hkm
            have hsome := (alookup_isSome_iff stM.map p.1).mpr hkm
            simp [hsome] at hmiss
          have hndk : (tA.map Prod.fst).Nodup := by
            rw [hfk]
            exact hE.filter _
          obtain ⟨a1, a2, a3, a4, a5, a6, a7, a8, a9⟩ :=
            @updateAdd_spec env stO tA E ((updateAdd env stO tA E).1)
              ((updateAdd env stO tA E).2) rfl hout hndk
          rw [a3, a1, hOmap, hfk]
          have h1 : (stM.map.map Prod.fst).Perm
              (E.filter (fun e => (alookup stM.map e).isSome)) :=
            hpermM.trans hpermRE.symm
          have h2 := h1.append_right
            (E.filter (fun e => !(alookup stM.map e).isSome))
          exact h2.trans (List.filter_append_perm _ E)

/-! ## Claim C9 -/

/-- C9: for every index at or beyond the current node count,
`get_node_at(index)` returns `None` instead of raising; for every index
strictly below the count it returns the node at that position of
`get_nodes()`.  (`EntrySupportDefault.get_node_at`.) -/
theorem getNodeAt_in_range_or_none (env : Env) (st : ESState) (i : Nat) :
    (((getNodesES env st).1.length ≤ i) → (getNodeAt env st i).1 = none) ∧
    (∀ h : i < (getNodesES env st).1.length,
      (getNodeAt env st i).1 = some ((getNodesES env st).1.get ⟨i, h⟩)) := by
  constructor
  · intro hle
    simp only [getNodeAt]
    rw [dif_neg (by omega)]
  · intro h
    simp only [getNodeAt]
    rw [dif_pos h]

theorem getNodeAt_in_range_or_none_witness :
    (getNodeAt envDemo demoSt 5).1 = none ∧
    (getNodeAt envDemo demoSt 0).1
      = some ((getNodesES envDemo demoSt).1.get ⟨0, by decide⟩) :=
  ⟨(getNodeAt_in_range_or_none envDemo demoSt 5).1 (by decide),
   (getNodeAt_in_range_or_none envDemo demoSt 0).2 (by decide)⟩

/-! ## Claim C10 -/

/-- C10: `find_child(None)` returns the first node of `get_nodes()` when
the children are non-empty and `None` when they are empty; for a
non-`None` name it returns the first node whose `system_name` equals the
name, or `None` when no node matches.  (`Children.find_child`.) -/
theorem findChild_first_match_or_none (env : Env) (st : ESState) :
    (findChild env st none).1 = ((getNodesES env st).1).head? ∧
    ∀ s, (findChild env st (some s)).1
      = (getNodesES env st).1.find? (fun n => n.sysName = some s) := by
  simp only [findChild]
  rcases h : (getNodesES env st).1 with _ | ⟨n0, rest⟩ <;> simp [h]

/-! ## Claim C8 -/

/-- C8 counterexample: `remove_property_change_listener` on an
unregistered listener is not a silently tolerated no-op — the bare
`list.remove` raises `ValueError` (here: listener `0` on an empty
registry). -/
theorem removePropertyChangeListener_unregistered_raises_cex :
    removePropertyChangeListener [] 0
      = Except.error "ValueError: list.remove(x): x not in list" := by
  rfl

/-- C8 amended: for a listener not currently registered,
`remove_node_listener` is a silently tolerated no-op that leaves the
registry unchanged, but `remove_property_change_listener` raises
`ValueError` instead of being tolerated. -/
theorem listener_removal_unregistered_behaviour (ls : List Nat) (l : Nat)
    (h : l ∉ ls) :
    removeNodeListener ls l = ls ∧
    removePropertyChangeListener ls l
      = Except.error "ValueError: list.remove(x): x not in list" := by
  have hm := memB_eq_false h
  constructor
  · simp [removeNodeListener, hm]
  · simp [removePropertyChangeListener, hm]

theorem listener_removal_unregistered_behaviour_witness :
    removeNodeListener [1, 2] 0 = [1, 2] ∧
    removePropertyChangeListener [1, 2] 0
      = Except.error "ValueError: list.remove(x): x not in list" :=
  listener_removal_unregistered_behaviour [1, 2] 0 (by decide)

/-! ## Claim C3 -/

/-- C3 counterexample: `Keys` inherits `Array.add` unchanged, so calling
`add([node])` on a Keys children returns `True` and appends the node to
its raw collection — not the claimed constant `False`/no-op. -/
theorem keysAdd_returns_true_cex :
    keysAdd [] [⟨0, none⟩] = ([⟨0, none⟩], true) := by
  rfl

/-- C3 amended: `Map.add`/`Map.remove` always return `False` and touch
nothing; `Keys` inherits `Array`'s (deprecated) `add`/`remove` unchanged;
and on `Array`/`SortedArray` (hence also on `Keys`), `add`/`remove`
return `False` exactly when no net change to the collection occurred. -/
theorem childrenVariants_add_remove_net_change (col ns : List Node) :
    mapAdd ns = false ∧ mapRemove ns = false ∧
    keysAdd = arrayAdd ∧ keysRemove = arrayRemove ∧
    ((arrayAdd col ns).2 = false ↔ (arrayAdd col ns).1 = col) ∧
    (∀ c b, arrayRemove col ns = some (c, b) → (b = false ↔ c = col)) := by
  refine ⟨rfl, rfl, rfl, rfl, ?_, ?_⟩
  · simp only [arrayAdd, decide_not, Bool.not_eq_false', decide_eq_true_eq,
      List.length_append]
    constructor
    · intro h
      have hn : ns = [] := List.length_eq_zero.mp (by omega)
      simp [hn]
    · intro h
      have hlen := congrArg List.length h
      rw [List.length_append] at hlen
      omega
  · intro c b hr
    simp only [arrayRemove] at hr
    split at hr
    · exact absurd hr (by simp)
    · rename_i c0 heq
      simp only [Option.some.injEq, Prod.mk.injEq] at hr
      obtain ⟨rfl, rfl⟩ := hr
      by_cases hcn : col = ns
      · rw [if_pos hcn] at heq
        simp only [Option.some.injEq] at heq
        subst heq
        constructor
        · intro hb
          simp only [decide_not, Bool.not_eq_false', decide_eq_true_eq] at hb
          have hcol : col = [] := List.length_eq_zero.mp (by simp at hb; omega)
          simp [hcol]
        · intro hc
          simp [← hc]
      · rw [if_neg hcn] at heq
        have hl := removeEachGo_length ns col c0 heq
        constructor
        · intro hb
          simp only [decide_not, Bool.not_eq_false', decide_eq_true_eq] at hb
          have hns : ns = [] := List.length_eq_zero.mp (by omega)
          subst hns
          simp only [removeEachGo, Option.some.injEq] at heq
          exact heq.symm
        · intro hc
          subst hc
          simp

theorem childrenVariants_add_remove_net_change_witness :
    ∀ c b, arrayRemove [⟨0, none⟩] [⟨0, none⟩] = some (c, b) →
      (b = false ↔ c = [⟨0, none⟩]) :=
  fun c b h =>
    (childrenVariants_add_remove_net_change [⟨0, none⟩] [⟨0, none⟩]).2.2.2.2.2 c b h

/-! ## Claim C2 -/

/-- C2 counterexample: a thread that holds SHARED access and is the sole
reader (`_can_upgrade` would allow an in-place upgrade to EXCLUSIVE)
still gets its `post_write_request` callback deferred to its
post-request queue instead of run immediately — `_post_request` never
takes the upgrade path. -/
theorem postRequest_sole_reader_upgrade_deferred_cex :
    canUpgrade MMode.shared MMode.excl 1 = true ∧
    (postRequest MMode.excl 7
        ⟨some ⟨MMode.shared, 1, 0, [], []⟩, 1⟩).1 = PostOutcome.queued := by
  constructor
  · rfl
  · rfl

/-- C2 amended: `post_read_request`/`post_write_request` run the callback
immediately and synchronously exactly when the calling thread is
unregistered (entering fresh, waiting if needed) or when its current
mode equals the requested mode and it holds zero entries of the other
mode; in every other case — including a sole reader posting a write
request, or a write holder posting a read request — the callback is
appended to the thread's per-mode post-request queue and deferred until
the thread releases that access. -/
theorem postRequest_immediate_iff_reentrant_same_mode (cb : Nat) (st : MState) :
    (st.threadInfo = none →
      (postReadRequest cb st).1 = PostOutcome.acquiredFresh ∧
      (postRequest MMode.excl cb st).1 = PostOutcome.acquiredFresh) ∧
    (∀ info, st.threadInfo = some info →
      ((postReadRequest cb st).1 = PostOutcome.ranReentrant ↔
        (info.mode = MMode.shared ∧ info.countExcl = 0)) ∧
      ((postRequest MMode.excl cb st).1 = PostOutcome.ranReentrant ↔
        (info.mode = MMode.excl ∧ info.countShared = 0)) ∧
      (¬(info.mode = MMode.shared ∧ info.countExcl = 0) →
        postReadRequest cb st = (PostOutcome.queued,
          { st with
            threadInfo := some ({ info with postShared := info.postShared ++ [cb] }) })) ∧
      (¬(info.mode = MMode.excl ∧ info.countShared = 0) →
        postRequest MMode.excl cb st = (PostOutcome.queued,
          { st with
            threadInfo := some ({ info with postExcl := info.postExcl ++ [cb] }) }))) := by
  obtain ⟨ti, rn⟩ := st
  constructor
  · rintro rfl
    exact ⟨rfl, rfl⟩
  · intro info hsome
    obtain ⟨mode, cS, cE, pS, pE⟩ := info
    subst hsome
    refine ⟨?_, ?_, ?_, ?_⟩ <;>
      cases mode <;> by_cases hcE : cE = 0 <;> by_cases hcS : cS = 0 <;>
        simp_all [postReadRequest, postRequest, otherCount]

theorem postRequest_immediate_iff_reentrant_same_mode_witness :
    postRequest MMode.excl 9 ⟨some ⟨MMode.shared, 1, 0, [], []⟩, 1⟩
      = (PostOutcome.queued, ⟨some ⟨MMode.shared, 1, 0, [], [9]⟩, 1⟩) :=
  ((postRequest_immediate_iff_reentrant_same_mode 9
      ⟨some ⟨MMode.shared, 1, 0, [], []⟩, 1⟩).2
    ⟨MMode.shared, 1, 0, [], []⟩ rfl).2.2.2 (by decide)

/-! ## Claim C4 -/

/-- C4 counterexample: `post_write_request` called from inside a protected
section does not raise — from a write section (thread registered in EXCL
mode, internal `_LOCK` not owned during the body) it runs the callback
synchronously, and from a read section it defers it to the thread's
queue. -/
theorem postWriteRequest_inside_access_no_raise_cex :
    postWriteRequest false 3 ⟨some ⟨MMode.excl, 0, 1, [], []⟩, 0⟩
      = Except.ok (PostOutcome.ranReentrant, ⟨some ⟨MMode.excl, 0, 1, [], []⟩, 0⟩) ∧
    postWriteRequest false 4 ⟨some ⟨MMode.shared, 1, 0, [], []⟩, 1⟩
      = Except.ok (PostOutcome.queued, ⟨some ⟨MMode.shared, 1, 0, [], [4]⟩, 1⟩) := by
  constructor
  · rfl
  · rfl

/-- C4 amended: `post_write_request` raises exactly when the calling
thread owns the mutex's internal state lock (i.e. it is invoked from
inside an internal mutex operation, e.g. a weak-reference finaliser
running during one); called with the lock not owned it never raises:
from inside a protected write section (no shared holds) it runs the
callback synchronously, and from inside a protected read section it
defers the callback until the read access is released. -/
theorem postWriteRequest_raises_iff_internal_lock_owned
    (lockOwned : Bool) (cb : Nat) (st : MState) :
    ((∃ msg, postWriteRequest lockOwned cb st = Except.error msg) ↔
      lockOwned = true) ∧
    (lockOwned = false →
      postWriteRequest lockOwned cb st
        = Except.ok (postRequest MMode.excl cb st)) ∧
    (∀ info, lockOwned = false → st.threadInfo = some info →
      info.mode = MMode.excl → info.countShared = 0 →
      postWriteRequest lockOwned cb st
        = Except.ok (PostOutcome.ranReentrant, st)) ∧
    (∀ info, lockOwned = false → st.threadInfo = some info →
      info.mode = MMode.shared →
      ∃ st', postWriteRequest lockOwned cb st
        = Except.ok (PostOutcome.queued, st')) := by
  refine ⟨?_, ?_, ?_, ?_⟩
  · cases lockOwned
    · simp [postWriteRequest]
    · simp [postWriteRequest]
  · intro h
    subst h
    rfl
  · intro info h hsome hmode hcount
    subst h
    simp [postWriteRequest, postRequest, hsome, otherCount, hmode, hcount]
  · intro info h hsome hmode
    subst h
    refine ⟨{ st with
        threadInfo := some ({ info with postExcl := info.postExcl ++ [cb] }) }, ?_⟩
    simp only [postWriteRequest, Bool.false_eq_true, if_false, postRequest,
      hsome, otherCount]
    rw [if_neg (by simp [hmode]), if_neg (by simp)]

theorem postWriteRequest_raises_iff_internal_lock_owned_witness :
    postWriteRequest false 5 ⟨some ⟨MMode.excl, 0, 2, [], []⟩, 0⟩
      = Except.ok (PostOutcome.ranReentrant, ⟨some ⟨MMode.excl, 0, 2, [], []⟩, 0⟩) :=
  (postWriteRequest_raises_iff_internal_lock_owned false 5
      ⟨some ⟨MMode.excl, 0, 2, [], []⟩, 0⟩).2.2.1
    ⟨MMode.excl, 0, 2, [], []⟩ rfl rfl rfl rfl

/-! ## Claim C5 -/

theorem updateRemove_events {st : ESState} {cur : List Node} {tr : List Entry}
    {st' : ESState} {evs : List Event}
    (h : updateRemove st cur tr = some (st', evs)) :
    ∀ e ∈ evs, e.isRemoved = true := by
  simp only [updateRemove] at h
  split at h
  · cases h
  · rename_i st1 nodes
    split at h
    · simp only [Option.some.injEq, Prod.mk.injEq] at h
      obtain ⟨-, rfl⟩ := h
      simp
    · simp only [Option.some.injEq, Prod.mk.injEq] at h
      obtain ⟨-, rfl⟩ := h
      split <;> simp [Event.isRemoved]

theorem updateOrder_events {st : ESState} {cur : List Node} {es : List Entry}
    {toAdd : List (Entry × Info)} {st' : ESState} {evs : List Event}
    (h : updateOrder st cur es = some (toAdd, st', evs)) :
    ∀ e ∈ evs, e.isReordered = true := by
  simp only [updateOrder] at h
  split at h
  · cases h
  · split at h
    · cases h
    · split at h
      · simp only [Option.some.injEq, Prod.mk.injEq] at h
        obtain ⟨-, -, rfl⟩ := h
        split <;> simp [Event.isReordered]
      · simp only [Option.some.injEq, Prod.mk.injEq] at h
        obtain ⟨-, -, rfl⟩ := h
        simp

theorem updateAdd_events (env : Env) (st : ESState) (toAdd : List (Entry × Info))
    (es : List Entry) :
    ∀ e ∈ (updateAdd env st toAdd es).2, e.isAdded = true := by
  simp only [updateAdd]
  split
  · simp
  · split <;> simp [Event.isAdded]

theorem diffPath_event_phases {env : Env} {st : ESState} {cur : List Node}
    {es : List Entry} {st' : ESState} {evs : List Event}
    (h : diffPath env st cur es = some (st', evs)) :
    ∃ r p q, evs = r ++ p ++ q ∧
      (∀ e ∈ r, e.isRemoved = true) ∧ (∀ e ∈ p, e.isReordered = true) ∧
      (∀ e ∈ q, e.isAdded = true) := by
  simp only [diffPath] at h
  split at h
  · cases h
  · rename_i st1 evs1 heq1
    have hr : ∀ e ∈ evs1, e.isRemoved = true := by
      split at heq1
      · simp only [Option.some.injEq, Prod.mk.injEq] at heq1
        obtain ⟨-, rfl⟩ := heq1
        simp
      · exact updateRemove_events heq1
    split at h
    · cases h
    · rename_i toAdd st3 evs2 heq2
      have hp : ∀ e ∈ evs2, e.isReordered = true := updateOrder_events heq2
      split at h
      · simp only [Option.some.injEq, Prod.mk.injEq] at h
        obtain ⟨-, rfl⟩ := h
        exact ⟨evs1, evs2, [], by simp, hr, hp, by simp⟩
      · simp only [Option.some.injEq, Prod.mk.injEq] at h
        obtain ⟨-, rfl⟩ := h
        exact ⟨evs1, evs2, _, rfl, hr, hp, updateAdd_events env st3 toAdd es⟩

theorem setEntries_event_phases {env : Env} {st : ESState} {es : List Entry}
    {st' : ESState} {evs : List Event}
    (h : setEntries env st es = some (st', evs)) :
    ∃ r p q, evs = r ++ p ++ q ∧
      (∀ e ∈ r, e.isRemoved = true) ∧ (∀ e ∈ p, e.isReordered = true) ∧
      (∀ e ∈ q, e.isAdded = true) := by
  simp only [setEntries] at h
  split at h
  · exact diffPath_event_phases h
  · split at h
    · simp only [Option.some.injEq, Prod.mk.injEq] at h
      obtain ⟨-, rfl⟩ := h
      exact ⟨[], [], [], rfl, by simp, by simp, by simp⟩
    · exact diffPath_event_phases h

/-- C5: within one `set_keys` call processed under EXCLUSIVE access, the
events fired decompose as the removal notifications, followed by the
reorder notifications, followed by the addition notifications — entry
removals are processed (and fired) before any reorder, which is
processed (and fired) before any additions (`_set_entries` runs
`__update_remove`, then `__update_order`, then `__update_add`). -/
theorem setKeys_removals_before_reorders_before_additions
    (env : Env) (st : ESState) (ks : List Nat) (st' : ESState) (evs : List Event)
    (h : setKeys env st ks = some (st', evs)) :
    ∃ r p q, evs = r ++ p ++ q ∧
      (∀ e ∈ r, e.isRemoved = true) ∧ (∀ e ∈ p, e.isReordered = true) ∧
      (∀ e ∈ q, e.isAdded = true) :=
  setEntries_event_phases h

theorem setKeys_removals_before_reorders_before_additions_witness :
    ∃ r p q, ([Event.reordered [1, 0]] : List Event) = r ++ p ++ q ∧
      (∀ e ∈ r, e.isRemoved = true) ∧ (∀ e ∈ p, e.isReordered = true) ∧
      (∀ e ∈ q, e.isAdded = true) :=
  setKeys_removals_before_reorders_before_additions envDemo demoSt [1, 0]
    demoReorderRun.1 [Event.reordered [1, 0]] (by rfl)

/-! ## Claim C1 -/

set_option maxHeartbeats 1000000 in
/-- C1: on a Keys children whose active entries materialise the old order
`[A, B, C]` (three distinct keys, one node each — built here by
`set_keys([0, 1, 2])` plus a `get_nodes()` materialisation on a fresh
Keys children), calling `set_keys` with a key sequence materialising the
new order `[C, A, B]` fires exactly one reordered event, whose
permutation `[1, 2, 0]` maps each old position to its new position —
applying it to the old order reproduces the new order
(`new[perm[i]] = old[i]`) — and fires no children-added or
children-removed events; `get_nodes()` afterwards returns `[C, A, B]`. -/
theorem setKeys_reorder_fires_single_permutation (A B C : Node) :
    scenarioTwoSets (envTriple A B C) [0, 1, 2] [2, 0, 1]
      = some ([A, B, C], [Event.reordered [1, 2, 0]], [C, A, B]) ∧
    ∀ i : Nat, i < 3 →
      ([C, A, B] : List Node).get? (([1, 2, 0] : List Nat).getD i 0)
        = ([A, B, C] : List Node).get? i := by
  constructor
  · have h1 : setKeys (envTriple A B C) keysFreshState [0, 1, 2]
        = some (c1AfterSetKeys, []) := rfl
    have h2 : getNodesES (envTriple A B C) c1AfterSetKeys
        = ([A, B, C], c1Materialised A B C) := rfl
    have h3 : setKeys (envTriple A B C) (c1Materialised A B C) [2, 0, 1]
        = some (c1Reordered A B C, [Event.reordered [1, 2, 0]]) := rfl
    have h4 : getNodesES (envTriple A B C) (c1Reordered A B C)
        = ([C, A, B], c1Final A B C) := rfl
    simp only [scenarioTwoSets, h1, h2, h3, h4]
  · intro i hi
    interval_cases i <;> rfl

theorem setKeys_reorder_fires_single_permutation_witness :
    ([⟨12, none⟩, ⟨10, none⟩, ⟨11, none⟩] : List Node).get?
        (([1, 2, 0] : List Nat).getD 1 0)
      = ([⟨10, none⟩, ⟨11, none⟩, ⟨12, none⟩] : List Node).get? 1 :=
  (setKeys_reorder_fires_single_permutation
    ⟨10, none⟩ ⟨11, none⟩ ⟨12, none⟩).2 1 (by decide)

/-! ## Claim C6 -/

/-- C6: for every key sequence `ks`, calling `set_keys(ks)` again
immediately after a successful `set_keys(ks)` (no other mutation in
between) succeeds with zero children-removed, children-added and
children-reordered events, and leaves `get_nodes()` unchanged.  The
well-formedness hypothesis `ESWF` states the invariants the Python
object model guarantees (distinct dict keys, distinct `_Info` objects,
identities produced by the fresh counter). -/
theorem setKeys_idempotent (env : Env) (st st1 : ESState) (ks : List Nat)
    (evs : List Event) (hwf : ESWF st)
    (h : setKeys env st ks = some (st1, evs)) :
    ∃ st2, setKeys env st1 ks = some (st2, []) ∧
      (getNodesES env st2).1 = (getNodesES env st1).1 := by
  obtain ⟨hk0, hi0, hf0⟩ := hwf
  have hE : (keysEntries ks false).Nodup := keysEntries_nodup ks false
  simp only [setKeys, setEntries] at h ⊢
  by_cases hmn : st.mustNotify = true
  · rw [if_pos hmn] at h
    by_cases hsp : st.storagePresent = true
    · rw [if_pos hsp] at h
      cases hsgP : storageGetNodes env
          { st with inited := true, mustNotify := false } with
      | mk cur0 stD =>
        rw [hsgP] at h
        obtain ⟨w1, w2, w3, w4, w5, w6, w7, w8, w9, w10, w11⟩ :=
          storageGetNodes_wf env { st with inited := true, mustNotify := false }
            hk0 hi0 hf0 cur0 stD hsgP
        obtain ⟨d1, d2, d3, st2, hd, hn⟩ :=
          diffPath_idem env (keysEntries ks false) hE stD cur0 st1 evs
            w8 w9 w10 (by rw [w2]; exact hsp) (by rw [w4]) (by rw [w5]) h
        refine ⟨st2, ?_, hn⟩
        rw [if_neg (by simp [d2]), if_neg (by simp [d1, d3])]
        exact hd
    · rw [if_neg hsp] at h
      cases hsgP : storageGetNodes env
          { getStorage st with inited := true, mustNotify := false } with
      | mk cur0 stD =>
        rw [hsgP] at h
        obtain ⟨w1, w2, w3, w4, w5, w6, w7, w8, w9, w10, w11⟩ :=
          storageGetNodes_wf env
            { getStorage st with inited := true, mustNotify := false }
            hk0 hi0 hf0 cur0 stD hsgP
        obtain ⟨d1, d2, d3, st2, hd, hn⟩ :=
          diffPath_idem env (keysEntries ks false) hE stD cur0 st1 evs
            w8 w9 w10 (by rw [w2]; rfl) (by rw [w4]) (by rw [w5]) h
        refine ⟨st2, ?_, hn⟩
        rw [if_neg (by simp [d2]), if_neg (by simp [d1, d3])]
        exact hd
  · rw [if_neg hmn] at h
    by_cases hun : st.storagePresent = false ∨ st.inited = false
    · rw [if_pos hun] at h
      simp only [Option.some.injEq, Prod.mk.injEq] at h
      obtain ⟨rfl, -⟩ := h
      have hmn2 : st.mustNotify = false := by simpa using hmn
      rw [if_neg (by simp [hmn2]), if_pos hun]
      have hM : (st.map.filter (fun p => memB p.1 (keysEntries ks false))).filter
          (fun p => memB p.1 (keysEntries ks false))
          = st.map.filter (fun p => memB p.1 (keysEntries ks false)) :=
        List.filter_eq_self.mpr (fun a ha => (List.mem_filter.mp ha).2)
      refine ⟨{ st with
          entries := keysEntries ks false,
          map := st.map.filter (fun p => memB p.1 (keysEntries ks false)) },
        ?_, ?_⟩
      · simp only [hM]
      · simp only [hM]
    · rw [if_neg hun] at h
      have hsp2 : st.storagePresent = true := by
        rcases Bool.eq_false_or_eq_true st.storagePresent with hb | hb
        · exact hb
        · exact absurd (Or.inl hb) hun
      have hin2 : st.inited = true := by
        rcases Bool.eq_false_or_eq_true st.inited with hb | hb
        · exact hb
        · exact absurd (Or.inr hb) hun
      cases hsg0 : storageGetNodes env st with
      | mk cur0 stD =>
        rw [hsg0] at h
        obtain ⟨w1, w2, w3, w4, w5, w6, w7, w8, w9, w10, w11⟩ :=
          storageGetNodes_wf env st hk0 hi0 hf0 cur0 stD hsg0
        have hmn2 : st.mustNotify = false := by simpa using hmn
        obtain ⟨d1, d2, d3, st2, hd, hn⟩ :=
          diffPath_idem env (keysEntries ks false) hE stD cur0 st1 evs
            w8 w9 w10 (by rw [w2, hsp2]) (by rw [w4, hmn2]) (by rw [w5, hin2]) h
        refine ⟨st2, ?_, hn⟩
        rw [if_neg (by simp [d2]), if_neg (by simp [d1, d3])]
        exact hd

theorem setKeys_idempotent_witness :
    ESWF keysFreshState ∧
    ∃ st2, setKeys envDemo demoStep1 [0, 1] = some (st2, []) ∧
      (getNodesES envDemo st2).1 = (getNodesES envDemo demoStep1).1 :=
  ⟨⟨by decide, by decide, by decide⟩,
    setKeys_idempotent envDemo keysFreshState demoStep1 [0, 1] []
      ⟨by decide, by decide, by decide⟩ (by decide)⟩

/-! ## Claim C7, amended theorem -/

/-- C7 (amended): on an `EntrySupportDefault` that is initialised (or is
about to initialise itself through the `__must_notify_set_entries`
branch), with a well-formed state, the entry → `_Info` map a permutation
of the active entry list, and a duplicate-free new entry list (the
client hash/equality contract), `_set_entries` — whose phases are
exactly entry removal, reorder and addition — re-establishes the
`map_len == entries_len` invariant of `__check_consistency`: the map
keys end up a permutation of the entry list, so their cardinalities
agree.  (The uninitialised early-return branch violates the invariant;
see the counterexample.) -/
theorem setEntries_consistency (env : Env) (st : ESState) (E : List Entry)
    (st1 : ESState) (evs : List Event)
    (hwf : ESWF st) (hE : E.Nodup)
    (hinit : st.mustNotify = true ∨ (st.storagePresent = true ∧ st.inited = true))
    (hperm : (st.map.map Prod.fst).Perm st.entries)
    (h : setEntries env st E = some (st1, evs)) :
    (st1.map.map Prod.fst).Perm st1.entries ∧
    st1.map.length = st1.entries.length := by
  obtain ⟨hk0, hi0, hf0⟩ := hwf
  have hmain : (st1.map.map Prod.fst).Perm st1.entries := by
    simp only [setEntries] at h
    by_cases hmn : st.mustNotify = true
    · rw [if_pos hmn] at h
      by_cases hsp : st.storagePresent = true
      · rw [if_pos hsp] at h
        cases hsgP : storageGetNodes env
            { st with inited := true, mustNotify := false } with
        | mk cur0 stD =>
          rw [hsgP] at h
          obtain ⟨p1, p2, p3, p4, p5, p6, p7, p8, p9⟩ :=
            storageGetNodes_preserves env
              { st with inited := true, mustNotify := false } hk0
              (fun e he => by
                rw [alookup_isSome_iff]
                exact hperm.mem_iff.mpr he) cur0 stD hsgP
          refine diffPath_consistency env E hE stD cur0 st1 evs ?_ ?_ ?_ ?_ h
          · rw [p2]
            exact hk0
          · rw [p3]
            exact hi0
          · intro p hp
            have hmem : p.2.id ∈ stD.map.map (fun p => p.2.id) :=
              List.mem_map_of_mem _ hp
            rw [p3] at hmem
            obtain ⟨q, hq, hqe⟩ := List.mem_map.mp hmem
            rw [p4, ← hqe]
            exact hf0 q hq
          · rw [p2, p1]
            exact hperm
      · rw [if_neg hsp] at h
        cases hsgP : storageGetNodes env
            { getStorage st with inited := true, mustNotify := false } with
        | mk cur0 stD =>
          rw [hsgP] at h
          obtain ⟨p1, p2, p3, p4, p5, p6, p7, p8, p9⟩ :=
            storageGetNodes_preserves env
              { getStorage st with inited := true, mustNotify := false } hk0
              (fun e he => by
                rw [alookup_isSome_iff]
                exact hperm.mem_iff.mpr he) cur0 stD hsgP
          refine diffPath_consistency env E hE stD cur0 st1 evs ?_ ?_ ?_ ?_ h
          · rw [p2]
            exact hk0
          · rw [p3]
            exact hi0
          · intro p hp
            have hmem : p.2.id ∈ stD.map.map (fun p => p.2.id) :=
              List.mem_map_of_mem _ hp
            rw [p3] at hmem
            obtain ⟨q, hq, hqe⟩ := List.mem_map.mp hmem
            rw [p4, ← hqe]
            exact hf0 q hq
          · rw [p2, p1]
            exact hperm
    · rw [if_neg hmn] at h
      obtain ⟨hsp2, hin2⟩ := hinit.resolve_left hmn
      rw [if_neg (by simp [hsp2, hin2])] at h
      cases hsg0 : storageGetNodes env st with
      | mk cur0 stD =>
        rw [hsg0] at h
        obtain ⟨p1, p2, p3, p4, p5, p6, p7, p8, p9⟩ :=
          storageGetNodes_preserves env st hk0
            (fun e he => by
              rw [alookup_isSome_iff]
              exact hperm.mem_iff.mpr he) cur0 stD hsg0
        refine diffPath_consistency env E hE stD cur0 st1 evs ?_ ?_ ?_ ?_ h
        · rw [p2]
          exact hk0
        · rw [p3]
          exact hi0
        · intro p hp
          have hmem : p.2.id ∈ stD.map.map (fun p => p.2.id) :=
            List.mem_map_of_mem _ hp
          rw [p3] at hmem
          obtain ⟨q, hq, hqe⟩ := List.mem_map.mp hmem
          rw [p4, ← hqe]
          exact hf0 q hq
        · rw [p2, p1]
          exact hperm
  refine ⟨hmain, ?_⟩
  have hlen := hmain.length_eq
  rwa [List.length_map] at hlen

theorem setEntries_consistency_witness :
    (ESWF c7State ∧ (keysEntries [] false).Nodup ∧
      (c7State.mustNotify = true ∨
        (c7State.storagePresent = true ∧ c7State.inited = true)) ∧
      (c7State.map.map Prod.fst).Perm c7State.entries) ∧
    ((((setEntries envDemo c7State (keysEntries [] false)).getD
          (keysFreshState, [])).1.map.map Prod.fst).Perm
        ((setEntries envDemo c7State (keysEntries [] false)).getD
          (keysFreshState, [])).1.entries ∧
      ((setEntries envDemo c7State (keysEntries [] false)).getD
          (keysFreshState, [])).1.map.length
        = ((setEntries envDemo c7State (keysEntries [] false)).getD
          (keysFreshState, [])).1.entries.length) :=
  ⟨⟨⟨by decide, by decide, by decide⟩, by decide,
      Or.inr ⟨by decide, by decide⟩, by decide⟩,
    setEntries_consistency envDemo c7State (keysEntries [] false)
      ((setEntries envDemo c7State (keysEntries [] false)).getD
        (keysFreshState, [])).1
      ((setEntries envDemo c7State (keysEntries [] false)).getD
        (keysFreshState, [])).2
      ⟨by decide, by decide, by decide⟩ (by decide)
      (Or.inr ⟨by decide, by decide⟩) (by decide) (by decide)⟩

/-! ## Claim C7, counterexample -/

/-- C7 counterexample: on a fresh (uninitialised) Keys children,
`set_keys([0])` takes the uninitialised branch of `_set_entries`, which
records the two entries (`_KeyEntry(0, 0)` plus the inherited
`__ArrayEntry`) but only prunes the entry → `_Info` map: afterwards
`map_len = 0` while `entries_len = 2`, although the single key trivially
satisfies the hash/equality contract. -/
theorem setEntries_uninitialised_map_entries_mismatch_cex :
    (setKeys envDemo keysFreshState [0]).map
        (fun r => (r.1.map.length, r.1.entries.length))
      = some (0, 2) := by
  rfl

end Openide
